import Mathlib

/-!
# Verification of the job-board-scripts identity & deduplication pipeline

Shallow embedding of the job-listing processing utilities:
ID/fingerprint generation, keyword classification, US-location filtering,
age filtering, merge/dedup, and JSON store loading.

Conventions:
* JavaScript strings are Lean `String`s; `undefined`/missing fields are
  `Option`; the JS falsy test `x || y` on strings treats both `undefined`
  and `""` as falsy.
* External platform primitives (SHA-256 from `crypto`, the WHATWG `URL`
  parser, `Date` parsing) are not repository code; functions that call
  them are parametrized over them (`hash`, `parseDate`) or use a
  restricted executable model (`miniUrlParse`) documented at its
  definition.
-/

namespace JobBoard

/-! ## JavaScript string primitives -/

/-- ASCII lowercasing, the effect of `String.prototype.toLowerCase` on the
ASCII inputs this pipeline deals with. -/
def jsToLower (s : String) : String := String.mk (s.data.map Char.toLower)

/-- Boolean prefix test on character lists. -/
def listIsPrefixOfB : List Char → List Char → Bool
  | [], _ => true
  | _ :: _, [] => false
  | a :: as, b :: bs => a = b && listIsPrefixOfB as bs

/-- Boolean infix test on character lists (`needle` occurs inside `hay`). -/
def listInfixB (needle : List Char) : List Char → Bool
  | [] => listIsPrefixOfB needle []
  | hay@(_ :: tl) => listIsPrefixOfB needle hay || listInfixB needle tl

/-- `hay.includes(needle)` from JavaScript. -/
def jsIncludes (hay needle : String) : Bool := listInfixB needle.toList hay.toList

/-- The string value of an optional field defaulted with `|| ''`. -/
def jsOrEmpty : Option String → String
  | some s => s
  | none => ""

/-- JS `a || b` on a string expression `a` with fallback string `b`
(`a` is falsy when missing or empty). -/
def jsOrStr (a : Option String) (b : String) : String :=
  match a with
  | some s => if s = "" then b else s
  | none => b

/-! ## The job record

One record type carrying every field any of the embedded functions reads.
Absent JSON fields are `none`. -/

structure Job where
  title : Option String := none
  job_title : Option String := none
  company : Option String := none
  company_name : Option String := none
  employer_name : Option String := none
  location : Option String := none
  job_city : Option String := none
  job_state : Option String := none
  job_country : Option String := none
  locations : Option (List String) := none
  job_description : Option String := none
  job_source : Option String := none
  job_apply_link : Option String := none
  url : Option String := none
  experience_level : Option String := none
  employment_type : Option String := none
  id : Option String := none
  fingerprint : Option String := none
  deriving Repr, DecidableEq

/-! ## Senior-job filter (`src/lib/job-processor.js`, `isSeniorJob`) -/

/-- Senior keywords from `isSeniorJob`. -/
def seniorKeywords : List String :=
  ["senior", "sr.", "staff", "principal", "lead",
   "architect", "manager", "director", "vp", "head of"]

/-- Entry-level keywords from `isSeniorJob`. -/
def entryLevelKeywords : List String :=
  ["entry level", "junior", "jr.", "new grad", "recent graduate",
   "associate", "intern", "campus", "student", "0-2 years", "early career"]

/-- The lowercased `title description` text `isSeniorJob` scans. -/
def seniorFilterText (job : Job) : String :=
  jsToLower (jsOrEmpty job.job_title ++ " " ++ jsOrEmpty job.job_description)

/-- `isSeniorJob` from `src/lib/job-processor.js`: JSearch-sourced jobs are
never senior; otherwise senior iff a senior keyword occurs and no
entry-level keyword does. -/
def isSeniorJob (job : Job) : Bool :=
  if job.job_source = some "jsearch" then false
  else
    let text := seniorFilterText job
    let hasSeniorKeyword := seniorKeywords.any (fun kw => jsIncludes text kw)
    let hasEntryLevelKeyword := entryLevelKeywords.any (fun kw => jsIncludes text kw)
    hasSeniorKeyword && !hasEntryLevelKeyword

/-! ## Classifier (`src/unnamed/part_004` = shared `lib/utils.js`) -/

/-- The shape of `config.categories.experienceLevels`: optional keyword
lists under the keys `'Senior'`, `'Entry-Level'`, `'Mid-Level'`. -/
structure ExperienceLevelsConfig where
  senior : Option (List String) := none
  entry : Option (List String) := none
  mid : Option (List String) := none

/-- The shape of `config.categories`: an ordered keyword table
(`Object.entries` order) and optional experience levels. -/
structure CategoriesConfig where
  keywords : Option (List (String × List String)) := none
  experienceLevels : Option ExperienceLevelsConfig := none

/-- The shape of the optional `config.locations` object: two caller-supplied
predicates. -/
structure LocationsConfig where
  isNonUS : String → Bool
  isUS : String → Bool

/-- The optional `config` argument threaded through the utils functions. -/
structure UtilsConfig where
  locations : Option LocationsConfig := none
  categories : Option CategoriesConfig := none

/-- `config && config.categories && config.categories.experienceLevels`. -/
def configExperienceLevels : Option UtilsConfig → Option ExperienceLevelsConfig
  | some cfg =>
    match cfg.categories with
    | some cats => cats.experienceLevels
    | none => none
  | none => none

/-- `config && config.categories && config.categories.keywords`. -/
def configKeywords : Option UtilsConfig → Option (List (String × List String))
  | some cfg =>
    match cfg.categories with
    | some cats => cats.keywords
    | none => none
  | none => none

/-- The lowercased `` `${title} ${description}` `` both classifiers scan. -/
def classifyText (title description : String) : String :=
  jsToLower (title ++ " " ++ description)

/-- `levels[k] && levels[k].some(keyword => text.includes(keyword))`. -/
def levelMatches : Option (List String) → String → Bool
  | some kws, text => kws.any (fun kw => jsIncludes text kw)
  | none, _ => false

/-- Builtin senior indicators in `getExperienceLevel`'s fallback chain. -/
def builtinSeniorLevelKeywords : List String :=
  ["senior", "sr.", "lead", "principal", "staff", "architect"]

/-- Builtin entry-level indicators in `getExperienceLevel`'s fallback chain. -/
def builtinEntryLevelKeywords : List String :=
  ["entry", "junior", "jr.", "new grad", "graduate", "intern",
   "associate", "level 1", "l1", "campus", "student", "early career"]

/-- The fallback chain of `getExperienceLevel` (the `||` chains written as
ordered keyword lists); the final default is `'Entry-Level'`. -/
def defaultExperienceLevel (text : String) : String :=
  if builtinSeniorLevelKeywords.any (fun kw => jsIncludes text kw) then "Senior"
  else if builtinEntryLevelKeywords.any (fun kw => jsIncludes text kw) then "Entry-Level"
  else "Entry-Level"

/-- `getExperienceLevel(title, description, config)` from the shared utils.
The config branch checks Senior, then Entry-Level, then Mid-Level, and
falls through to the builtin chain when nothing matched. -/
def getExperienceLevel (config : Option UtilsConfig) (title : String)
    (description : String := "") : String :=
  let text := classifyText title description
  match configExperienceLevels config with
  | some levels =>
    if levelMatches levels.senior text then "Senior"
    else if levelMatches levels.entry text then "Entry-Level"
    else if levelMatches levels.mid text then "Mid-Level"
    else defaultExperienceLevel text
  | none => defaultExperienceLevel text

/-- First label of the table whose keyword list has a substring match. -/
def lookupFirstMatch (table : List (String × List String)) (text : String) :
    Option String :=
  match table with
  | [] => none
  | (label, kws) :: rest =>
    if kws.any (fun kw => jsIncludes text kw) then some label
    else lookupFirstMatch rest text

/-- The builtin category if-chain of `getJobCategory`, as an ordered table. -/
def builtinCategoryTable : List (String × List String) :=
  [("Mobile Development", ["ios", "android", "mobile"]),
   ("Frontend Development", ["frontend", "front-end", "react", "vue"]),
   ("Backend Development", ["backend", "back-end", "api", "server"]),
   ("Machine Learning & AI", ["machine learning", "ml ", "ai ", "deep learning"]),
   ("Data Science & Analytics", ["data scientist", "data analyst", "analytics"]),
   ("DevOps & Infrastructure", ["devops", "infrastructure", "cloud"]),
   ("Security Engineering", ["security", "cybersecurity"]),
   ("Product Management", ["product manager", "pm "]),
   ("Design", ["design", "ux", "ui"]),
   ("Full Stack Development", ["full stack", "fullstack"])]

/-- Builtin fallback of `getJobCategory`: first matching category, default
`'Software Engineering'`. -/
def builtinCategory (text : String) : String :=
  (lookupFirstMatch builtinCategoryTable text).getD "Software Engineering"

/-- `getJobCategory(title, description, config)` from the shared utils. -/
def getJobCategory (config : Option UtilsConfig) (title : String)
    (description : String := "") : String :=
  let text := classifyText title description
  match configKeywords config with
  | some table =>
    match lookupFirstMatch table text with
    | some label => label
    | none => builtinCategory text
  | none => builtinCategory text

/-! ## Whitespace helpers -/

/-- JS `\s` on the character repertoire these strings use. -/
def jsIsWs (c : Char) : Bool :=
  c = ' ' || c = '\t' || c = '\n' || c = '\r' || c = '\x0b' || c = '\x0c'

/-- `String.prototype.trim`. -/
def jsTrimList (l : List Char) : List Char :=
  ((l.dropWhile jsIsWs).reverse.dropWhile jsIsWs).reverse

/-- `String.prototype.trim` on strings. -/
def jsTrim (s : String) : String := String.mk (jsTrimList s.data)

/-- Global replacement of maximal runs of characters satisfying `p` by the
single character `r` (JS `.replace(/[X]+/g, r)`). The boolean tracks
whether the previous character was part of a run. -/
def collapseRunsAux (p : Char → Bool) (r : Char) : Bool → List Char → List Char
  | _, [] => []
  | inRun, c :: cs =>
    if p c then
      if inRun then collapseRunsAux p r true cs
      else r :: collapseRunsAux p r true cs
    else c :: collapseRunsAux p r false cs

/-- `.replace(/[X]+/g, r)` entry point. -/
def collapseRuns (p : Char → Bool) (r : Char) (l : List Char) : List Char :=
  collapseRunsAux p r false l

/-- `.replace(/[,\s]+/g, ' ')` as used on city/state fields. -/
def cleanCommaWs (s : String) : String :=
  String.mk (collapseRuns (fun c => c = ',' || jsIsWs c) ' ' s.data)

/-! ## US-location filters -/

/-- `isUSOnlyJob(job, config)` from the shared utils
(`src/unnamed/part_004`). Reads only `job_state`/`job_city`. With a
`locations` config it defers to the caller's predicates; without one the
fallback chain ends in an unconditional `return true` (the documented
2026-02-11 default-to-allow fix). -/
def isUSOnlyJob_utils (job : Job) (config : Option UtilsConfig) : Bool :=
  let locConfig : Option LocationsConfig :=
    match config with
    | some cfg => cfg.locations
    | none => none
  let state := jsTrim (jsToLower (jsOrEmpty job.job_state))
  let city := jsTrim (jsToLower (jsOrEmpty job.job_city))
  let cleanCity := jsTrim (cleanCommaWs city)
  let cleanState := jsTrim (cleanCommaWs state)
  match locConfig with
  | some lc =>
    if lc.isNonUS cleanCity || lc.isNonUS cleanState then false
    else lc.isUS cleanCity || lc.isUS cleanState
  | none =>
    let usIndicators := ["us", "usa", "united states", "america"]
    if usIndicators.any (fun i => jsIncludes cleanState i) then true
    else if jsIncludes cleanCity "remote" || jsIncludes cleanState "remote" then true
    else true

/-- Non-US country list of `isUSOnlyJob` in `src/lib/job-processor.js`. -/
def nonUSCountries : List String :=
  ["canada", "uk", "united kingdom", "germany", "france",
   "netherlands", "india", "singapore", "japan", "australia"]

/-- US state/territory codes of `isUSOnlyJob` in `src/lib/job-processor.js`. -/
def usStateCodes : List String :=
  ["al", "ak", "az", "ar", "ca", "co", "ct", "de", "fl", "ga",
   "hi", "id", "il", "in", "ia", "ks", "ky", "la", "me", "md",
   "ma", "mi", "mn", "ms", "mo", "mt", "ne", "nv", "nh", "nj",
   "nm", "ny", "nc", "nd", "oh", "ok", "or", "pa", "ri", "sc",
   "sd", "tn", "tx", "ut", "vt", "va", "wa", "wv", "wi", "wy", "dc"]

/-- `isUSOnlyJob(job)` from `src/lib/job-processor.js`: explicit US country,
then non-US country exclusion, then state codes, then remote-with-no-country,
then `return false`. -/
def isUSOnlyJob_jp (job : Job) : Bool :=
  let country := jsToLower (jsOrEmpty job.job_country)
  let state := jsToLower (jsOrEmpty job.job_state)
  let city := jsToLower (jsOrEmpty job.job_city)
  if country = "us" || country = "usa" || country = "united states" then true
  else if nonUSCountries.any (fun c => jsIncludes country c) then false
  else if usStateCodes.contains state then true
  else if jsIncludes city "remote" && country = "" then true
  else false

/-! ## Age filter (`isJobOlderThanWeek`, shared utils) -/

/-- Decimal value of a digit list (`parseInt` on a digits-only capture). -/
def digitsToNat (l : List Char) : Nat :=
  l.foldl (fun n c => 10 * n + (c.toNat - 48)) 0

/-- The regex `^(\d+)([hdwmo])$/i`: one or more digits followed by exactly
one character of the class `[hdwmo]`. Returns the numeric value and the
lowercased captured unit. Note the captured unit is a single character:
the two-character sequence `mo` can never be captured. -/
def parseRelativeDate (s : String) : Option (Nat × String) :=
  match s.data.reverse with
  | [] => none
  | u :: rds =>
    let ds := rds.reverse
    if ds ≠ [] && ds.all Char.isDigit && ['h', 'd', 'w', 'm', 'o'].contains u.toLower
    then some (digitsToNat ds, String.mk [u.toLower])
    else none

/-- `isJobOlderThanWeek(dateString)` from the shared utils, parametrized by
the platform primitives it calls: `parseDate` models `new Date(...)`
(returning `none` for an invalid date) and `nowMs` models `Date.now()`,
both in milliseconds. -/
def isJobOlderThanWeek (parseDate : String → Option Int) (nowMs : Int)
    (dateString : Option String) : Bool :=
  match dateString with
  | none => false
  | some s =>
    if s = "" then false
    else
      match parseRelativeDate s with
      | some (value, unit) =>
        if unit = "h" then decide (336 ≤ value)
        else if unit = "d" then decide (14 ≤ value)
        else if unit = "w" then decide (2 ≤ value)
        else if unit = "mo" then true
        else false
      | none =>
        match parseDate s with
        | none => false
        | some t => decide (14 ≤ (nowMs - t).fdiv 86400000)

/-! ## JSON store loading (`src/lib/job-processor.js`) -/

/-- JSON values, the possible results of a successful `JSON.parse`. -/
inductive JVal where
  | jnull : JVal
  | jbool : Bool → JVal
  | jnum : Int → JVal
  | jstr : String → JVal
  | jarr : List JVal → JVal
  | jobj : List (String × JVal) → JVal
  deriving Repr

/-- What reading and parsing the store file can yield: `none` when the file
does not exist, `some (.error ())` when reading or `JSON.parse` throws
(corrupt contents), `some (.ok v)` when it parses to `v`. -/
abbrev FileRead := Option (Except Unit JVal)

/-- JS `SameValueZero`, the equality `Set` membership uses, on the values
`JSON.parse` can produce: value equality on primitives; objects and arrays
coming out of a single `JSON.parse` are all distinct fresh references, so
reference equality between two of them is always false. -/
def sameValueZero : JVal → JVal → Bool
  | .jnull, .jnull => true
  | .jbool a, .jbool b => a == b
  | .jnum a, .jnum b => a == b
  | .jstr a, .jstr b => a == b
  | _, _ => false

/-- JS truthiness of a parsed JSON value (for `data || []`). -/
def jsTruthyJVal : JVal → Bool
  | .jnull => false
  | .jbool b => b
  | .jnum n => decide (n ≠ 0)
  | .jstr s => decide (s ≠ "")
  | .jarr _ => true
  | .jobj _ => true

/-- `Set.prototype.add`: append when not already present (membership by
`SameValueZero`). -/
def setInsert (l : List JVal) (v : JVal) : List JVal :=
  if l.any (fun w => sameValueZero w v) then l else l ++ [v]

/-- `Object.keys` on a parsed JSON value. On `null` it throws a
`TypeError`; on a string it yields the index keys; on other primitives it
yields nothing. -/
def objectKeys : JVal → Except Unit (List JVal)
  | .jnull => .error ()
  | .jobj kvs => .ok (kvs.map fun kv => JVal.jstr kv.1)
  | .jstr s => .ok ((List.range s.length).map fun i => JVal.jstr (toString i))
  | _ => .ok []

/-- The `try` body of `loadSeenJobsStore`: missing file short-circuits to an
empty set; otherwise parse, then either collect array elements or object
keys into the set. -/
def loadSeenBody (f : FileRead) : Except Unit (List JVal) :=
  match f with
  | none => .ok []
  | some (.error e) => .error e
  | some (.ok v) =>
    match v with
    | .jarr elems => .ok (elems.foldl setInsert [])
    | other =>
      match objectKeys other with
      | .ok keys => .ok (keys.foldl setInsert [])
      | .error e => .error e

/-- `loadSeenJobsStore`: the `catch` turns any failure into an empty set. -/
def loadSeenJobsStore (f : FileRead) : List JVal :=
  match loadSeenBody f with
  | .ok s => s
  | .error _ => []

/-- The `try` body of `loadCurrentJobsStore`: missing file yields `[]`,
otherwise `JSON.parse(...) || []`. -/
def loadCurrentBody (f : FileRead) : Except Unit JVal :=
  match f with
  | none => .ok (.jarr [])
  | some (.error e) => .error e
  | some (.ok v) => .ok (if jsTruthyJVal v then v else .jarr [])

/-- `loadCurrentJobsStore`: the `catch` turns any failure into `[]`. -/
def loadCurrentJobsStore (f : FileRead) : JVal :=
  match loadCurrentBody f with
  | .ok v => v
  | .error _ => .jarr []

/-! ## Merge engine (`mergeJobs`, `src/lib/job-processor.js`) -/

/-- The id the merge keys on: `if (job.id)` admits only a present,
non-empty id. -/
def truthyId (j : Job) : Option String :=
  match j.id with
  | some s => if s = "" then none else some s
  | none => none

/-- JS `Map.prototype.set` on an insertion-ordered association list:
replace the value at the (unique) existing key in place, else append. -/
def mapSet : List (String × Job) → String → Job → List (String × Job)
  | [], k, v => [(k, v)]
  | p :: ps, k, v => if p.1 = k then (k, v) :: ps else p :: mapSet ps k v

/-- One `forEach` step of `mergeJobs`: insert keyed by truthy id, drop
id-less records. -/
def insertJob (m : List (String × Job)) (j : Job) : List (String × Job) :=
  match truthyId j with
  | some k => mapSet m k j
  | none => m

/-- `mergeJobs(persistedJobs, freshJobs)`: fill the map from the persisted
records, then the fresh ones (overwriting on key collision), and return
`Array.from(jobMap.values())`. -/
def mergeJobs (persistedJobs freshJobs : List Job) : List Job :=
  (freshJobs.foldl insertJob (persistedJobs.foldl insertJob [])).map Prod.snd

/-- JS `Map.prototype.get`. -/
def mapGet (m : List (String × Job)) (k : String) : Option Job :=
  (m.find? fun p => decide (p.1 = k)).map Prod.snd

/-- Left-biased choice on options. -/
def optOr {α : Type} : Option α → Option α → Option α
  | some x, _ => some x
  | none, y => y

/-- The last record of `l` whose truthy id is `k` — the survivor
last-write-wins should keep. -/
def lastWithId (l : List Job) (k : String) : Option Job :=
  (l.filter fun j => decide (truthyId j = some k)).getLast?

/-- Key/value coherence and key uniqueness of the job map. -/
def MapInv (m : List (String × Job)) : Prop :=
  (∀ p ∈ m, truthyId p.2 = some p.1) ∧ (m.map Prod.fst).Nodup

/-! ## Hash-based identity functions (`src/lib/jobId.js`,
`src/lib/deduplication.js` = `src/unnamed/part_003`)

SHA-256 from `crypto` is a platform primitive, not repository code, so
every function below is parametrized by `hash : String → String`; the
theorems hold for every hash function, in particular the real digest. -/

/-- Drop all trailing whitespace and require at least one was present
(the `\s+` before the matched legal suffix). -/
def wsStripEnd (b : List Char) : Option (List Char) :=
  match b.reverse with
  | [] => none
  | c :: rest =>
    if jsIsWs c then some (((c :: rest).dropWhile jsIsWs).reverse) else none

/-- Remove `target` from the end of `l` when it is a suffix. -/
def dropSuffixIfMatch (l target : List Char) : Option (List Char) :=
  if target.isSuffixOf l then some (l.take (l.length - target.length)) else none

/-- The legal-suffix alternatives of `lib/jobId.js`'s
`normalizeCompanyName` regex, in alternation order; the optional dot of
`\.?` applies to every alternative. -/
def companySuffixes : List String :=
  ["inc", "llc", "corp", "corporation", "ltd", "limited", "gmbh", "co", "company"]

/-- `.replace(/\s+(inc|llc|corp|corporation|ltd|limited|gmbh|co|company)\.?$/gi, '')`
on an already-lowercased string: strip one matching suffix word (with its
optional dot) together with the whitespace run before it. -/
def stripCompanySuffix (l : List Char) : List Char :=
  match companySuffixes.findSome? (fun alt =>
    match dropSuffixIfMatch l (alt.data ++ ['.']) with
    | some b => wsStripEnd b
    | none =>
      match dropSuffixIfMatch l alt.data with
      | some b => wsStripEnd b
      | none => none) with
  | some res => res
  | none => l

/-- `normalizeCompanyName` from `lib/jobId.js`. -/
def normalizeCompanyName (company : Option String) : String :=
  match company with
  | none => ""
  | some c =>
    if c = "" then ""
    else String.mk (collapseRuns jsIsWs ' ' (stripCompanySuffix (jsTrimList (jsToLower c).data)))

/-- `normalizeTitle` from `lib/jobId.js`: lowercase, trim, collapse runs of
whitespace. -/
def normalizeTitle (title : Option String) : String :=
  match title with
  | none => ""
  | some t =>
    if t = "" then ""
    else String.mk (collapseRuns jsIsWs ' ' (jsTrimList (jsToLower t).data))

/-- `normalizeLocation` from `lib/jobId.js` (same normalization as titles). -/
def normalizeLocation (location : Option String) : String :=
  match location with
  | none => ""
  | some l =>
    if l = "" then ""
    else String.mk (collapseRuns jsIsWs ' ' (jsTrimList (jsToLower l).data))

/-- The `company|title|location` string `lib/jobId.js` hashes. -/
def jobIdHashInput (j : Job) : String :=
  let location :=
    match j.location with
    | some l => if l = "" then "" else normalizeLocation (some l)
    | none => ""
  jsTrim (jsToLower (normalizeCompanyName j.company ++ "|" ++
    normalizeTitle j.title ++ "|" ++ location))

/-- `generateJobId` of `lib/jobId.js` on a non-null job: the first 8 hex
characters of the digest. -/
def generateJobIdOfJob (hash : String → String) (j : Job) : String :=
  (hash (jobIdHashInput j)).take 8

/-- `generateJobId` of `lib/jobId.js` including its null check
(`if (!job) throw new Error('Job object is required')`). -/
def generateJobIdChecked (hash : String → String) : Option Job → Except String String
  | none => .error "Job object is required"
  | some j => .ok (generateJobIdOfJob hash j)

/-- The `company|title|location|experience_level|employment_type` string
`lib/deduplication.js` hashes. -/
def fingerprintInput (j : Job) : String :=
  String.intercalate "|"
    ([j.company, j.title, j.location, j.experience_level, j.employment_type].map
      (fun o => jsTrim (jsToLower (jsOrEmpty o))))

/-- `generateFingerprint` of `lib/deduplication.js` on a non-null job. -/
def generateFingerprintOfJob (hash : String → String) (j : Job) : String :=
  hash (fingerprintInput j)

/-- `generateFingerprint` of `lib/deduplication.js` including its null
check. -/
def generateFingerprintChecked (hash : String → String) :
    Option Job → Except String String
  | none => .error "Job object is required"
  | some j => .ok (generateFingerprintOfJob hash j)

/-! ## `filterDuplicates` (`src/lib/deduplication.js`) -/

/-- The id a job carries after the in-place assignment
`job.id = job.id || generateJobId(job)`. -/
def enrichedId (hash : String → String) (j : Job) : String :=
  jsOrStr j.id (generateJobIdOfJob hash j)

/-- The fingerprint after `job.fingerprint = job.fingerprint || generateFingerprint(job)`. -/
def enrichedFp (hash : String → String) (j : Job) : String :=
  jsOrStr j.fingerprint (generateFingerprintOfJob hash j)

/-- The record as mutated in place by the `filterDuplicates` loop. -/
def enrichJobIds (hash : String → String) (j : Job) : Job :=
  { j with id := some (enrichedId hash j), fingerprint := some (enrichedFp hash j) }

/-- The single pass of `filterDuplicates`, carrying the `seen` id set and
the `seenFingerprints` set. -/
def filterDuplicatesGo (hash : String → String) :
    List String → List String → List Job → List Job
  | _, _, [] => []
  | seenIds, seenFps, j :: tl =>
    if enrichedId hash j ∈ seenIds ∨ enrichedFp hash j ∈ seenFps then
      filterDuplicatesGo hash seenIds seenFps tl
    else
      enrichJobIds hash j ::
        filterDuplicatesGo hash (enrichedId hash j :: seenIds)
          (enrichedFp hash j :: seenFps) tl

/-- `filterDuplicates(jobs)` from `lib/deduplication.js`. -/
def filterDuplicates (hash : String → String) (jobs : List Job) : List Job :=
  filterDuplicatesGo hash [] [] jobs

/-! ## Word-boundary regex scanner

The title/company regexes of the fingerprint and enhanced-id functions are
word-boundary token replacements (`\b(tok1|tok2|…)\b` with `/g`). The
scanner below implements exactly that: scan left to right, at each
position try the alternatives in order (each alternative a literal,
optional dots expanded into two ordered literals), check the `\b`
assertions against the ORIGINAL string's neighbouring characters, emit the
replacement and resume after the matched region. Fuel (initialised to the
string length, enough since every match consumes at least one character)
keeps the recursion structural. -/

/-- JS `\w`: ASCII letters, digits, underscore. -/
def isWordChar (c : Char) : Bool := c.isAlpha || c.isDigit || c = '_'

/-- Lowercase ASCII letter. -/
def isLowerAlpha (c : Char) : Bool := 'a' ≤ c && c ≤ 'z'

/-- Word-ness of an optional character (`none` = string edge, non-word). -/
def wordB : Option Char → Bool
  | some c => isWordChar c
  | none => false

/-- A `\b` assertion between two (optional) characters. -/
def boundaryOk (a b : Option Char) : Bool := wordB a != wordB b

/-- Try the alternatives in order at the current position: the literal must
be a prefix of the remaining input with a word boundary on each side. -/
def tokMatchAt (alts : List (List Char)) (prev : Option Char)
    (l : List Char) : Option (List Char) :=
  alts.findSome? fun alt =>
    match alt with
    | [] => none
    | a :: rest =>
      if listIsPrefixOfB (a :: rest) l && boundaryOk prev (some a) &&
          boundaryOk (some ((a :: rest).getLastD a)) (l.drop (a :: rest).length).head?
      then some (a :: rest) else none

/-- One global pass of `\b(alts)\b → repl`, fuel-driven. -/
def replaceTokensFuel (alts : List (List Char)) (repl : List Char) :
    Nat → Option Char → List Char → List Char
  | 0, _, l => l
  | _, _, [] => []
  | fuel + 1, prev, c :: cs =>
    match tokMatchAt alts prev (c :: cs) with
    | some alt =>
      repl ++ replaceTokensFuel alts repl fuel (some (alt.getLastD c))
        ((c :: cs).drop alt.length)
    | none => c :: replaceTokensFuel alts repl fuel (some c) cs

/-- The pass with its canonical fuel. -/
def scanT (alts : List (List Char)) (repl : List Char)
    (prev : Option Char) (l : List Char) : List Char :=
  replaceTokensFuel alts repl l.length prev l

/-- `.replace(/\b(alts)\b/g, repl)` on a string. -/
def replaceWordTokens (alts : List String) (repl : String) (s : String) : String :=
  String.mk (scanT (alts.map String.data) repl.data none s.data)

/-- The seniority alternation
`senior|sr\.?|junior|jr\.?|staff|principal|lead|associate` with the
optional dots expanded (greedy dot first). -/
def seniorityAlts : List String :=
  ["senior", "sr.", "sr", "junior", "jr.", "jr", "staff", "principal",
   "lead", "associate"]

/-- The version alternation `i{1,3}|iv|v|1|2|3|4|5` with the counted `i`s
expanded greedily. -/
def romanAlts : List String := ["iii", "ii", "i", "iv", "v", "1", "2", "3", "4", "5"]

/-- `.replace(/\s+-\s+[^-]+$/, '')`: drop a trailing ` - suffix` clause.
Because `[^-]+` excludes hyphens, the matched hyphen is the string's last
one; the match requires whitespace on its left and at least whitespace
plus one more character on its right, and also removes the whitespace run
before the hyphen. -/
def stripSuffixClause (l : List Char) : List Char :=
  let r := l.reverse
  let afterRev := r.takeWhile (fun c => c ≠ '-')
  if afterRev.length = r.length then l
  else
    let beforeRev := r.drop (afterRev.length + 1)
    let after := afterRev.reverse
    if (match after.head? with | some c => jsIsWs c | none => false) &&
        decide (2 ≤ after.length) &&
        (match beforeRev.head? with | some c => jsIsWs c | none => false)
    then (beforeRev.dropWhile jsIsWs).reverse
    else l

/-- `s.split(',')[0]`. -/
def splitCommaHead (s : String) : String :=
  String.mk (s.data.takeWhile fun c => c ≠ ',')

/-- A chain `a || b || … || ''` of optional string expressions. -/
def firstTruthy : List (Option String) → String
  | [] => ""
  | o :: rest =>
    match o with
    | some s => if s = "" then firstTruthy rest else s
    | none => firstTruthy rest

/-- `.replace(/\s+(alt1|alt2|…)$/,'')`-style suffix stripping, alternatives
already expanded in alternation order (dots included where the regex makes
them optional): remove the first alternative that is a suffix preceded by
whitespace, together with that whitespace run. -/
def stripSuffixAlts (alts : List String) (l : List Char) : List Char :=
  match alts.findSome? (fun alt =>
    match dropSuffixIfMatch l alt.data with
    | some b => wsStripEnd b
    | none => none) with
  | some res => res
  | none => l

/-- Suffix alternatives of `normalizeCompanyNameStr` in the shared utils:
`\s+(inc\.?|llc|corp\.?|corporation|ltd\.?|limited|gmbh|co|company)$`. -/
def utilsSuffixAlts : List String :=
  ["inc.", "inc", "llc", "corp.", "corp", "corporation", "ltd.", "ltd",
   "limited", "gmbh", "co", "company"]

/-- Suffix alternatives of the `job-processor.js` fingerprint's company
normalization: `\s+(inc\.?|llc|corp\.?|ltd\.?)$`. -/
def jpSuffixAlts : List String :=
  ["inc.", "inc", "llc", "corp.", "corp", "ltd.", "ltd"]

/-- `normalizeCompanyNameStr(company)` from the shared utils: falsy guard,
lowercase, trim, strip one legal suffix, collapse whitespace runs. -/
def normalizeCompanyNameStr (company : String) : String :=
  if company = "" then ""
  else
    String.mk (collapseRuns jsIsWs ' '
      (stripSuffixAlts utilsSuffixAlts (jsTrimList (jsToLower company).data)))

/-- The title normalization of the shared utils `generateJobFingerprint`:
lowercase+trim, remove seniority tokens, remove version tokens, drop a
trailing ` - suffix` clause, collapse whitespace, trim. -/
def fpTitleNormalize (t : String) : String :=
  let l0 := jsTrimList (jsToLower t).data
  let l1 := scanT (seniorityAlts.map String.data) [] none l0
  let l2 := scanT (romanAlts.map String.data) [] none l1
  let l3 := stripSuffixClause l2
  String.mk (jsTrimList (collapseRuns jsIsWs ' ' l3))

/-- The location component of the shared fingerprints: first entry of a
`locations` array, else `job_city || location || ''`; first comma segment,
lowercased and trimmed. -/
def fpLocation (j : Job) : String :=
  match j.locations with
  | some (l0 :: _) => jsTrim (jsToLower (splitCommaHead l0))
  | _ => jsTrim (jsToLower (splitCommaHead (firstTruthy [j.job_city, j.location])))

/-- `generateJobFingerprint(job)` from the shared utils
(`src/unnamed/part_004`). -/
def generateJobFingerprint_utils (j : Job) : String :=
  let title := fpTitleNormalize (firstTruthy [j.title, j.job_title])
  let company := normalizeCompanyNameStr
    (firstTruthy [j.company_name, j.employer_name, j.company])
  let location := fpLocation j
  company ++ "::" ++ title ++ "::" ++ location

/-- `generateJobFingerprint(job)` from `src/lib/job-processor.js`: strips
seniority tokens but NOT version/roman tokens. -/
def generateJobFingerprint_jp (j : Job) : String :=
  let title := String.mk (jsTrimList (collapseRuns jsIsWs ' '
    (scanT (seniorityAlts.map String.data) [] none
      (jsToLower (jsOrEmpty j.job_title)).data)))
  let company := String.mk (jsTrimList
    (stripSuffixAlts jpSuffixAlts (jsToLower (jsOrEmpty j.employer_name)).data))
  let location := jsTrim (jsToLower (splitCommaHead (jsOrEmpty j.job_city)))
  company ++ "::" ++ title ++ "::" ++ location

/-! ## URL-based job IDs (`generateJobId` in `src/lib/job-processor.js`,
`generateJobIdFromUrl`/`generateEnhancedId` in the shared utils) -/

/-- Model of the WHATWG `URL` parser (a platform primitive, not repository
code) restricted to plain `http(s)` URLs without userinfo, port,
percent-encoding or dot-segments: returns the lowercased `hostname` and
the `pathname` (leading slash, query/fragment excluded, `"/"` when the
path is empty). Returns `none` when the string does not look like such a
URL (`new URL` throws). -/
def miniUrlParse (s : String) : Option (String × String) :=
  let afterScheme : Option (List Char) :=
    if listIsPrefixOfB "https://".data s.data then some (s.data.drop 8)
    else if listIsPrefixOfB "http://".data s.data then some (s.data.drop 7)
    else none
  match afterScheme with
  | none => none
  | some rest =>
    let hostChars := rest.takeWhile fun c => c ≠ '/' && c ≠ '?' && c ≠ '#'
    if hostChars = [] then none
    else
      let tail := rest.drop hostChars.length
      let pathChars := tail.takeWhile fun c => c ≠ '?' && c ≠ '#'
      let pathname := if pathChars = [] then "/" else String.mk pathChars
      some (jsToLower (String.mk hostChars), pathname)

/-- `.replace(/\/$/, '')`: strip one trailing slash. -/
def stripTrailingSlash (p : String) : String :=
  match p.data.reverse with
  | '/' :: rest => String.mk rest.reverse
  | _ => p

/-- `.replace(/^-|-$/g, '')`: drop one leading and one trailing hyphen. -/
def trimHyphens (l : List Char) : List Char :=
  let l1 := match l with
    | '-' :: t => t
    | other => other
  match l1.reverse with
  | '-' :: t => t.reverse
  | _ => l1

/-- `.toLowerCase().replace(/[^\w]/g,'-').replace(hyphen-runs with a single hyphen).replace(/^-|-$/g,'')`
applied to `hostname + pathname` in both URL-id functions. -/
def sanitizeUrlId (s : String) : String :=
  String.mk (trimHyphens (collapseRuns (fun c => c = '-') '-'
    ((jsToLower s).data.map fun c => if isWordChar c then c else '-')))

/-- `.replace(/[^\w-]/g,'-').replace(hyphen-runs with a single hyphen).replace(/^-|-$/g,'')`, the
`normalize` helper of the fallback id builders (keeps hyphens). -/
def sanitizeKeepHyphens (l : List Char) : List Char :=
  trimHyphens (collapseRuns (fun c => c = '-') '-'
    (l.map fun c => if isWordChar c || c = '-' then c else '-'))

/-- One `.replace(/\s*,\s*/g,'-')` pass: each comma, together with the
whitespace directly around it, becomes a hyphen (fuel-driven scan). -/
def replaceCommaWsFuel : Nat → List Char → List Char
  | 0, l => l
  | _, [] => []
  | fuel + 1, c :: cs =>
    if c = ',' then '-' :: replaceCommaWsFuel fuel (cs.dropWhile jsIsWs)
    else if jsIsWs c then
      let run := (c :: cs).takeWhile jsIsWs
      let rest := (c :: cs).drop run.length
      match rest with
      | ',' :: r2 => '-' :: replaceCommaWsFuel fuel (r2.dropWhile jsIsWs)
      | _ => run ++ replaceCommaWsFuel fuel rest
    else c :: replaceCommaWsFuel fuel cs

/-- `.replace(/\s*,\s*/g,'-')`. -/
def replaceCommaWs (l : List Char) : List Char := replaceCommaWsFuel l.length l

/-- The title pipeline of `generateEnhancedId`: lowercase+trim, then the
sequential word-boundary replacements (roman numerals to digits,
`sr./jr.` expansion, `&` to `and`), then whitespace runs to hyphens. -/
def enhancedTitle (t : String) : List Char :=
  let l0 := jsTrimList (jsToLower t).data
  let l1 := scanT (["i"].map String.data) "1".data none l0
  let l2 := scanT (["ii"].map String.data) "2".data none l1
  let l3 := scanT (["iii"].map String.data) "3".data none l2
  let l4 := scanT (["iv"].map String.data) "4".data none l3
  let l5 := scanT (["v"].map String.data) "5".data none l4
  let l6 := scanT (["sr.", "sr"].map String.data) "senior".data none l5
  let l7 := scanT (["jr.", "jr"].map String.data) "junior".data none l6
  let l8 := scanT (["&"].map String.data) "and".data none l7
  collapseRuns jsIsWs '-' l8

/-- The company pipeline of `generateEnhancedId`: lowercase+trim, the
sequential anchored suffix strips, commas to hyphens, whitespace runs to
hyphens. -/
def enhancedCompany (c : String) : List Char :=
  let l0 := jsTrimList (jsToLower c).data
  let l1 := stripSuffixAlts
    ["inc.", "inc", "incorporated", "llc", "corp.", "corp", "corporation",
     "ltd.", "ltd", "limited"] l0
  let l2 := stripSuffixAlts ["solutions", "solution"] l1
  let l3 := stripSuffixAlts ["technologies", "technologie"] l2
  let l4 := stripSuffixAlts ["systems", "system"] l3
  let l5 := stripSuffixAlts ["group"] l4
  collapseRuns jsIsWs '-' (replaceCommaWs l5)

/-- The city pipeline of `generateEnhancedId`. -/
def enhancedCity (j : Job) : List Char :=
  let city :=
    match j.locations with
    | some (l0 :: _) => jsTrim (jsToLower l0)
    | _ => jsTrim (jsToLower (firstTruthy [j.job_city, j.location]))
  collapseRuns jsIsWs '-' city.data

/-- `generateEnhancedId(job)` from the shared utils. -/
def generateEnhancedId (j : Job) : String :=
  String.mk (sanitizeKeepHyphens
      (enhancedCompany (firstTruthy [j.company_name, j.employer_name, j.company]))) ++
    "-" ++ String.mk (sanitizeKeepHyphens
      (enhancedTitle (firstTruthy [j.title, j.job_title]))) ++
    "-" ++ String.mk (sanitizeKeepHyphens (enhancedCity j))

/-- The shared `hostname + pathname-without-trailing-slash` sanitization of
both URL-id functions. -/
def urlBasedId (host path : String) : String :=
  sanitizeUrlId (host ++ stripTrailingSlash path)

/-- The `company-title-location` fallback of `generateJobId` in
`src/lib/job-processor.js`. -/
def jpFallbackId (j : Job) : String :=
  let company := String.mk (collapseRuns jsIsWs '-' (jsToLower (jsOrEmpty j.employer_name)).data)
  let title := String.mk (collapseRuns jsIsWs '-' (jsToLower (jsOrEmpty j.job_title)).data)
  let location := String.mk (collapseRuns jsIsWs '-' (jsToLower (jsOrEmpty j.job_city)).data)
  String.mk (sanitizeKeepHyphens (company ++ "-" ++ title ++ "-" ++ location).data)

/-- `generateJobId(job)` from `src/lib/job-processor.js`: URL-derived when
`job_apply_link` parses, else the company-title-location fallback. -/
def generateJobId_jp (j : Job) : String :=
  match j.job_apply_link with
  | none => jpFallbackId j
  | some u =>
    if u = "" then jpFallbackId j
    else
      match miniUrlParse u with
      | some (host, path) => urlBasedId host path
      | none => jpFallbackId j

/-- `generateJobIdFromUrl(job)` from the shared utils: `job.url ||
job.job_apply_link`, URL-derived when it parses, else the enhanced id. -/
def generateJobIdFromUrl (j : Job) : String :=
  let u := firstTruthy [j.url, j.job_apply_link]
  if u = "" then generateEnhancedId j
  else
    match miniUrlParse u with
    | some (host, path) => urlBasedId host path
    | none => generateEnhancedId j

/-! ## Cleanliness predicates for the fingerprint invariance proof -/

/-- A character that every step of the title pipeline leaves alone: a word
character (so it sits inside `\b`-words), not whitespace, not a hyphen,
and fixed by lowercasing. -/
def CleanChar (c : Char) : Prop :=
  isWordChar c = true ∧ jsIsWs c = false ∧ c ≠ '-' ∧ Char.toLower c = c

instance : DecidablePred CleanChar := fun c => by
  unfold CleanChar
  infer_instance

/-- A non-empty word of clean characters. -/
def CleanWord (w : List Char) : Prop := w ≠ [] ∧ ∀ c ∈ w, CleanChar c

instance : DecidablePred CleanWord := fun w => by
  unfold CleanWord
  infer_instance

/-- Words joined by single spaces. -/
def wordsToChars : List (List Char) → List Char
  | [] => []
  | [w] => w
  | w :: ws => w ++ ' ' :: wordsToChars ws

/-- Structural facts about an alternation list that the no-match lemmas
rely on (all hold for the concrete alternations by computation). -/
structure AltsSpec (alts : List (List Char)) : Prop where
  ne : ∀ a ∈ alts, a ≠ []
  headWord : ∀ a ∈ alts, wordB a.head? = true
  noSpace : ∀ a ∈ alts, ' ' ∉ a

/-- The scan context after a block of words: the last character of the last
word, or the incoming context when there are no words. -/
def wordsLastPrev (ws : List (List Char)) (prev : Option Char) : Option Char :=
  match ws.getLast? with
  | some w => some (w.getLastD ' ')
  | none => prev

/-! ## Theorems -/

theorem optOr_none_right {α : Type} (o : Option α) : optOr o none = o := by
  cases o <;> rfl

theorem optOr_assoc {α : Type} (a b c : Option α) :
    optOr (optOr a b) c = optOr a (optOr b c) := by
  cases a <;> rfl

/-- `getLast?` of a cons as a right-biased choice. -/
theorem getLast?_cons_optOr {α : Type} (a : α) (l : List α) :
    (a :: l).getLast? = optOr l.getLast? (some a) := by
  induction l generalizing a with
  | nil => rfl
  | cons b t ih =>
    rw [List.getLast?_cons_cons, ih b]
    cases t.getLast? <;> rfl

/-- Unfolding `lastWithId` over a cons. -/
theorem lastWithId_cons (j : Job) (tl : List Job) (k : String) :
    lastWithId (j :: tl) k =
      if truthyId j = some k then optOr (lastWithId tl k) (some j)
      else lastWithId tl k := by
  unfold lastWithId
  rw [List.filter_cons]
  by_cases hj : truthyId j = some k
  · rw [if_pos (by simpa using hj), if_pos hj, getLast?_cons_optOr]
  · rw [if_neg (by simpa using hj), if_neg hj]

/-- `Map.get` after `Map.set`. -/
theorem mapGet_mapSet (m : List (String × Job)) (k : String) (v : Job) (q : String) :
    mapGet (mapSet m k v) q = if q = k then some v else mapGet m q := by
  induction m with
  | nil =>
    by_cases hq : q = k
    · subst hq
      simp [mapSet, mapGet, List.find?_cons]
    · have hd : decide (k = q) = false := decide_eq_false fun h => hq h.symm
      simp [mapSet, mapGet, List.find?_cons, hd, hq]
  | cons p ps ih =>
    rw [mapSet]
    by_cases hp : p.1 = k
    · rw [if_pos hp]
      by_cases hq : q = k
      · subst hq
        simp [mapGet, List.find?_cons]
      · have h1 : decide (k = q) = false := decide_eq_false fun h => hq h.symm
        have h2 : decide (p.1 = q) = false := decide_eq_false fun h => hq ((hp ▸ h : k = q)).symm
        simp [mapGet, List.find?_cons, h1, h2, hq]
    · rw [if_neg hp]
      by_cases hpq : p.1 = q
      · have hq : ¬ q = k := fun h => hp (hpq.trans h)
        have hd : decide (p.1 = q) = true := decide_eq_true hpq
        simp [mapGet, List.find?_cons, hd, hq]
      · have hd : decide (p.1 = q) = false := decide_eq_false hpq
        simp only [mapGet, List.find?_cons, hd]
        simpa [mapGet] using ih

/-- `Map.get` after one `mergeJobs` insertion step. -/
theorem mapGet_insertJob (m : List (String × Job)) (j : Job) (k : String) :
    mapGet (insertJob m j) k =
      if truthyId j = some k then some j else mapGet m k := by
  unfold insertJob
  cases hid : truthyId j with
  | none =>
    rw [if_neg (by simp [hid])]
  | some k0 =>
    rw [mapGet_mapSet]
    by_cases hk : k = k0
    · subst hk
      simp
    · rw [if_neg hk, if_neg (fun h => hk (Option.some.inj h).symm)]

theorem mem_of_getLast?_eq {α : Type} {l : List α} {x : α}
    (h : l.getLast? = some x) : x ∈ l := by
  induction l with
  | nil => cases h
  | cons a t ih =>
    rw [getLast?_cons_optOr] at h
    cases hl : t.getLast? with
    | none =>
      rw [hl] at h
      cases h
      exact List.mem_cons_self _ _
    | some y =>
      rw [hl] at h
      cases h
      exact List.mem_cons_of_mem _ (ih hl)

theorem getLast?_append_optOr {α : Type} (l₁ l₂ : List α) :
    (l₁ ++ l₂).getLast? = optOr l₂.getLast? l₁.getLast? := by
  induction l₁ with
  | nil => rw [List.nil_append, List.getLast?_nil, optOr_none_right]
  | cons a t ih =>
    rw [List.cons_append, getLast?_cons_optOr, ih, optOr_assoc, ← getLast?_cons_optOr]

theorem getLast?_isSome_of_ne_nil {α : Type} {l : List α} (h : l ≠ []) :
    ∃ y, l.getLast? = some y := by
  cases l with
  | nil => exact absurd rfl h
  | cons a t =>
    rw [getLast?_cons_optOr]
    cases t.getLast? with
    | none => exact ⟨a, rfl⟩
    | some y => exact ⟨y, rfl⟩

/-- Entries of `mapSet` are the new binding or old entries. -/
theorem mapSet_entries {m : List (String × Job)} {k : String} {v : Job} :
    ∀ p ∈ mapSet m k v, p = (k, v) ∨ p ∈ m := by
  induction m with
  | nil =>
    intro p hp
    rw [mapSet, List.mem_singleton] at hp
    exact Or.inl hp
  | cons q ps ih =>
    intro p hp
    rw [mapSet] at hp
    by_cases hq : q.1 = k
    · rw [if_pos hq] at hp
      rcases List.mem_cons.mp hp with h | h
      · exact Or.inl h
      · exact Or.inr (List.mem_cons_of_mem _ h)
    · rw [if_neg hq] at hp
      rcases List.mem_cons.mp hp with h | h
      · exact Or.inr (h ▸ List.mem_cons_self _ _)
      · rcases ih p h with h' | h'
        · exact Or.inl h'
        · exact Or.inr (List.mem_cons_of_mem _ h')

/-- `Map.set` on a present key leaves the key sequence unchanged. -/
theorem keys_mapSet_mem {m : List (String × Job)} {k : String} (v : Job)
    (hk : k ∈ m.map Prod.fst) :
    (mapSet m k v).map Prod.fst = m.map Prod.fst := by
  induction m with
  | nil => cases hk
  | cons q ps ih =>
    rw [mapSet]
    by_cases hq : q.1 = k
    · rw [if_pos hq]
      simp [hq]
    · rw [if_neg hq]
      rw [List.map_cons] at hk ⊢
      rcases List.mem_cons.mp hk with h | h
      · exact absurd h.symm hq
      · rw [ih h]
        rfl

/-- `Map.set` on an absent key appends it. -/
theorem keys_mapSet_not_mem {m : List (String × Job)} {k : String} (v : Job)
    (hk : k ∉ m.map Prod.fst) :
    (mapSet m k v).map Prod.fst = m.map Prod.fst ++ [k] := by
  induction m with
  | nil => rfl
  | cons q ps ih =>
    rw [mapSet]
    rw [List.map_cons] at hk
    have hq : ¬ q.1 = k := fun h => hk (h ▸ List.mem_cons_self _ _)
    rw [if_neg hq, List.map_cons, ih (fun h => hk (List.mem_cons_of_mem _ h)),
      List.map_cons, List.cons_append]

/-- One insertion step preserves the map invariant. -/
theorem mapInv_insertJob {m : List (String × Job)} (hm : MapInv m) (j : Job) :
    MapInv (insertJob m j) := by
  unfold insertJob
  cases hid : truthyId j with
  | none => exact hm
  | some k =>
    constructor
    · intro p hp
      rcases mapSet_entries p hp with h | h
      · rw [h]
        exact hid
      · exact hm.1 p h
    · by_cases hk : k ∈ m.map Prod.fst
      · rw [keys_mapSet_mem j hk]
        exact hm.2
      · rw [keys_mapSet_not_mem j hk]
        simp [List.nodup_append, hm.2, hk]

/-- Folding a batch of insertions preserves the map invariant. -/
theorem mapInv_foldl {l : List Job} {m : List (String × Job)} (hm : MapInv m) :
    MapInv (l.foldl insertJob m) := by
  induction l generalizing m with
  | nil => exact hm
  | cons j tl ih => exact ih (mapInv_insertJob hm j)

/-- Under the invariant, a stored entry is what `Map.get` returns. -/
theorem mapGet_eq_some_of_mem {m : List (String × Job)} (hm : MapInv m)
    {k : String} {j : Job} (hmem : (k, j) ∈ m) : mapGet m k = some j := by
  induction m with
  | nil => cases hmem
  | cons p ps ih =>
    rcases List.mem_cons.mp hmem with h | h
    · rw [← h]
      simp [mapGet, List.find?_cons]
    · have hk : k ∈ ps.map Prod.fst := List.mem_map.mpr ⟨(k, j), h, rfl⟩
      have hnd : (p.1 :: ps.map Prod.fst).Nodup := hm.2
      have hp1 : ¬ p.1 = k := by
        intro he
        exact (List.nodup_cons.mp hnd).1 (he ▸ hk)
      have hd : decide (p.1 = k) = false := decide_eq_false hp1
      simp only [mapGet, List.find?_cons, hd]
      have hm' : MapInv ps :=
        ⟨fun q hq => hm.1 q (List.mem_cons_of_mem _ hq),
         (List.nodup_cons.mp hnd).2⟩
      simpa [mapGet] using ih hm' h

/-- A `Map.get` hit is a stored entry. -/
theorem mem_of_mapGet_eq_some {m : List (String × Job)} {k : String} {j : Job}
    (h : mapGet m k = some j) : (k, j) ∈ m := by
  induction m with
  | nil => cases h
  | cons p ps ih =>
    by_cases hp : p.1 = k
    · have hd : decide (p.1 = k) = true := decide_eq_true hp
      simp only [mapGet, List.find?_cons, hd, Option.map_some'] at h
      have hj : p.2 = j := Option.some.inj h
      have hpe : (k, j) = p := by
        rw [← hp, ← hj]
      rw [hpe]
      exact List.mem_cons_self _ _
    · have hd : decide (p.1 = k) = false := decide_eq_false hp
      simp only [mapGet, List.find?_cons, hd] at h
      exact List.mem_cons_of_mem _ (ih (by simpa [mapGet] using h))

/-- `Map.get` after folding a batch in: the last batch record with the key
wins, falling back to the previous map. -/
theorem mapGet_foldl_insertJob (l : List Job) (m : List (String × Job)) (k : String) :
    mapGet (l.foldl insertJob m) k = optOr (lastWithId l k) (mapGet m k) := by
  induction l generalizing m with
  | nil => rfl
  | cons j tl ih =>
    rw [List.foldl_cons, ih, mapGet_insertJob, lastWithId_cons]
    by_cases hj : truthyId j = some k
    · rw [if_pos hj, if_pos hj, optOr_assoc]
      cases lastWithId tl k <;> rfl
    · rw [if_neg hj, if_neg hj]

/-- Folding `Set.add` over pairwise-distinct values not yet present keeps
them all, in order. -/
theorem foldl_setInsert_of_distinct (l : List JVal) (acc : List JVal)
    (hdisj : ∀ x ∈ l, ∀ y ∈ acc, sameValueZero y x = false)
    (hnd : l.Pairwise (fun a b => sameValueZero a b = false)) :
    l.foldl setInsert acc = acc ++ l := by
  induction l generalizing acc with
  | nil => simp
  | cons a tl ih =>
    rw [List.foldl_cons]
    have ha : setInsert acc a = acc ++ [a] := by
      unfold setInsert
      rw [if_neg]
      intro hc
      obtain ⟨y, hy, hsv⟩ := List.any_eq_true.mp hc
      rw [hdisj a (List.mem_cons_self _ _) y hy] at hsv
      exact Bool.false_ne_true hsv
    rw [ha, ih (acc ++ [a])]
    · simp
    · intro x hx y hy
      rcases List.mem_append.mp hy with hya | hys
      · exact hdisj x (List.mem_cons_of_mem _ hx) y hya
      · rw [List.mem_singleton] at hys
        subst hys
        exact (List.pairwise_cons.mp hnd).1 x hx
    · exact (List.pairwise_cons.mp hnd).2

/-- If every keyword of a table fails to occur in `text`, the first-match
lookup finds nothing. -/
theorem lookupFirstMatch_eq_none {table : List (String × List String)}
    {text : String}
    (h : ∀ p ∈ table, ∀ kw ∈ p.2, jsIncludes text kw = false) :
    lookupFirstMatch table text = none := by
  induction table with
  | nil => rfl
  | cons hd tl ih =>
    obtain ⟨label, kws⟩ := hd
    rw [lookupFirstMatch]
    rw [if_neg]
    · exact ih fun p hm => h p (List.mem_cons_of_mem _ hm)
    · intro hany
      obtain ⟨kw, hkw, hinc⟩ := List.any_eq_true.mp hany
      have := h (label, kws) (List.mem_cons_self _ _) kw hkw
      rw [this] at hinc
      exact Bool.false_ne_true hinc

/-- C1 counterexample: the `job-processor.js` variant of `isUSOnlyJob`
returns `false` (not `true`) on a record whose country, state and city are
all missing — it falls through every branch to the final `return false`. -/
theorem isUSOnlyJob_jp_empty_counterexample :
    isUSOnlyJob_jp {} = false := by decide

/-- C1 (amended): the shared-utils `isUSOnlyJob`, called without a location
config, returns `true` for every record whose country, state and city
fields are all empty or missing (its no-config fallback defaults to
include); the `job-processor.js` variant instead returns `false` there. -/
theorem isUSOnlyJob_utils_default_include (job : Job)
    (_hc : jsOrEmpty job.job_country = "")
    (_hs : jsOrEmpty job.job_state = "")
    (_hcity : jsOrEmpty job.job_city = "") :
    isUSOnlyJob_utils job none = true := by
  unfold isUSOnlyJob_utils
  simp only [ite_self]

/-- Witness for C1: the all-empty record is accepted by the shared-utils
filter. -/
theorem isUSOnlyJob_utils_default_include_witness :
    isUSOnlyJob_utils {} none = true :=
  isUSOnlyJob_utils_default_include {} rfl rfl rfl

/-- C2: the relative-date thresholds of `isJobOlderThanWeek` behave as
specified for the `h`, `d` and `w` units, but a month-unit string such as
`"3mo"` is NOT treated as stale: the capture class `[hdwmo]` matches a
single character, so `"3mo"` fails the regex, falls through to `Date`
parsing (which cannot parse it), and yields `false` — contradicting the
function's own `case 'mo': return true` branch, its doc comment and its
unit test. -/
theorem isJobOlderThanWeek_relative (parseDate : String → Option Int) (nowMs : Int)
    (h3mo : parseDate "3mo" = none) :
    isJobOlderThanWeek parseDate nowMs (some "15d") = true ∧
    isJobOlderThanWeek parseDate nowMs (some "13d") = false ∧
    isJobOlderThanWeek parseDate nowMs (some "336h") = true ∧
    isJobOlderThanWeek parseDate nowMs (some "200h") = false ∧
    isJobOlderThanWeek parseDate nowMs (some "2w") = true ∧
    isJobOlderThanWeek parseDate nowMs (some "1w") = false ∧
    isJobOlderThanWeek parseDate nowMs (some "3mo") = false := by
  refine ⟨rfl, rfl, rfl, rfl, rfl, rfl, ?_⟩
  simp only [isJobOlderThanWeek, show parseRelativeDate "3mo" = none from rfl, h3mo,
    ite_self]

/-- Witness for C2: with a date parser that rejects `"3mo"` (as JS `Date`
does), the thresholds and the month-unit divergence are concrete. -/
theorem isJobOlderThanWeek_relative_witness :
    isJobOlderThanWeek (fun _ => none) 0 (some "15d") = true ∧
    isJobOlderThanWeek (fun _ => none) 0 (some "3mo") = false :=
  ⟨(isJobOlderThanWeek_relative (fun _ => none) 0 rfl).1,
   (isJobOlderThanWeek_relative (fun _ => none) 0 rfl).2.2.2.2.2.2⟩

/-- C3: `mergeJobs` keeps exactly one record per distinct truthy id — the
last-written one, so a fresh record replaces a persisted record with the
same id — and records lacking an id never appear in the result. -/
theorem mergeJobs_spec (persisted fresh : List Job) :
    ((mergeJobs persisted fresh).map truthyId).Nodup ∧
    (∀ j, j ∈ mergeJobs persisted fresh ↔
      ∃ k, lastWithId (persisted ++ fresh) k = some j) ∧
    (∀ j ∈ mergeJobs persisted fresh, truthyId j ≠ none) ∧
    (∀ k jf, jf ∈ fresh → truthyId jf = some k →
      ∀ j ∈ mergeJobs persisted fresh, truthyId j = some k → j ∈ fresh) := by
  have hinv0 : MapInv ([] : List (String × Job)) := ⟨fun p hp => absurd hp (List.not_mem_nil p), List.nodup_nil⟩
  have hm : MapInv (fresh.foldl insertJob (persisted.foldl insertJob [])) :=
    mapInv_foldl (mapInv_foldl hinv0)
  have hres : mergeJobs persisted fresh =
      (fresh.foldl insertJob (persisted.foldl insertJob [])).map Prod.snd := rfl
  have hget : ∀ k, mapGet (fresh.foldl insertJob (persisted.foldl insertJob [])) k =
      lastWithId (persisted ++ fresh) k := by
    intro k
    rw [← List.foldl_append, mapGet_foldl_insertJob]
    exact optOr_none_right _
  have hmem : ∀ j, j ∈ mergeJobs persisted fresh ↔
      ∃ k, lastWithId (persisted ++ fresh) k = some j := by
    intro j
    rw [hres]
    constructor
    · intro hj
      obtain ⟨p, hp, hpj⟩ := List.mem_map.mp hj
      refine ⟨p.1, ?_⟩
      rw [← hget p.1]
      have : (p.1, p.2) ∈ fresh.foldl insertJob (persisted.foldl insertJob []) := by
        simpa using hp
      rw [mapGet_eq_some_of_mem hm this, hpj]
    · rintro ⟨k, hk⟩
      rw [← hget k] at hk
      exact List.mem_map.mpr ⟨(k, j), mem_of_mapGet_eq_some hk, rfl⟩
  have hid : ∀ j ∈ mergeJobs persisted fresh, ∀ k,
      lastWithId (persisted ++ fresh) k = some j → truthyId j = some k := by
    intro j _ k hk
    have hjf := mem_of_getLast?_eq hk
    have := List.of_mem_filter hjf
    simpa using this
  refine ⟨?_, hmem, ?_, ?_⟩
  · rw [hres, List.map_map]
    have hcongr : (fresh.foldl insertJob (persisted.foldl insertJob [])).map
        (truthyId ∘ Prod.snd) =
        (fresh.foldl insertJob (persisted.foldl insertJob [])).map
        (fun p => some p.1) := by
      apply List.map_congr_left
      intro p hp
      exact hm.1 p hp
    rw [hcongr]
    have : (fresh.foldl insertJob (persisted.foldl insertJob [])).map
        (fun p => some p.1) =
        ((fresh.foldl insertJob (persisted.foldl insertJob [])).map Prod.fst).map some := by
      rw [List.map_map]
      rfl
    rw [this]
    exact hm.2.map (fun a b hab => Option.some.inj hab)
  · intro j hj
    obtain ⟨k, hk⟩ := (hmem j).mp hj
    rw [hid j hj k hk]
    exact fun h => Option.noConfusion h
  · intro k jf hjf hjfid j hj hjid
    obtain ⟨k', hk'⟩ := (hmem j).mp hj
    have hkk : k' = k := by
      have := hid j hj k' hk'
      rw [hjid] at this
      exact (Option.some.inj this).symm
    subst hkk
    unfold lastWithId at hk'
    rw [List.filter_append] at hk'
    have hne : (fresh.filter fun j => decide (truthyId j = some k')) ≠ [] := by
      apply List.ne_nil_of_mem (a := jf)
      exact List.mem_filter.mpr ⟨hjf, by simp [hjfid]⟩
    obtain ⟨y, hy⟩ := getLast?_isSome_of_ne_nil hne
    rw [getLast?_append_optOr, hy] at hk'
    have : y = j := Option.some.inj hk'
    subst this
    exact List.mem_of_mem_filter (mem_of_getLast?_eq hy)

/-- Witness for C3: with one persisted and one fresh record sharing id
`"x"`, the fresh version is the survivor and it is a fresh record. -/
theorem mergeJobs_spec_witness :
    ({ id := some "x", title := some "new" } : Job) ∈
      mergeJobs [{ id := some "x", title := some "old" }] [{ id := some "x", title := some "new" }] ∧
    (∀ j ∈ mergeJobs [({ id := some "x", title := some "old" } : Job)]
        [{ id := some "x", title := some "new" }],
      truthyId j = some "x" → j ∈ [({ id := some "x", title := some "new" } : Job)]) := by
  constructor
  · exact ((mergeJobs_spec [{ id := some "x", title := some "old" }]
      [{ id := some "x", title := some "new" }]).2.1 _).mpr ⟨"x", by decide⟩
  · intro j hj hjid
    exact (mergeJobs_spec [{ id := some "x", title := some "old" }]
      [{ id := some "x", title := some "new" }]).2.2.2 "x"
      { id := some "x", title := some "new" } (List.mem_singleton.mpr rfl) (by decide)
      j hj hjid

/-- The dedup pass yields a subsequence of the enriched input. -/
theorem filterDupGo_sublist (hash : String → String) :
    ∀ (l : List Job) (si sf : List String),
      List.Sublist (filterDuplicatesGo hash si sf l) (l.map (enrichJobIds hash)) := by
  intro l
  induction l with
  | nil =>
    intro si sf
    exact List.Sublist.refl _
  | cons j tl ih =>
    intro si sf
    simp only [filterDuplicatesGo, List.map_cons]
    by_cases h : enrichedId hash j ∈ si ∨ enrichedFp hash j ∈ sf
    · rw [if_pos h]
      exact List.Sublist.cons _ (ih si sf)
    · rw [if_neg h]
      exact List.Sublist.cons₂ _ (ih _ _)

/-- Every output record of the pass is an enriched input record whose id
and fingerprint were unseen when it was reached. -/
theorem filterDupGo_mem (hash : String → String) :
    ∀ (l : List Job) (si sf : List String) (j' : Job),
      j' ∈ filterDuplicatesGo hash si sf l →
      ∃ j ∈ l, j' = enrichJobIds hash j ∧
        enrichedId hash j ∉ si ∧ enrichedFp hash j ∉ sf := by
  intro l
  induction l with
  | nil =>
    intro si sf j' hj'
    exact absurd hj' (List.not_mem_nil j')
  | cons j tl ih =>
    intro si sf j' hj'
    simp only [filterDuplicatesGo] at hj'
    by_cases h : enrichedId hash j ∈ si ∨ enrichedFp hash j ∈ sf
    · rw [if_pos h] at hj'
      obtain ⟨j0, hm, he, hi, hf⟩ := ih si sf j' hj'
      exact ⟨j0, List.mem_cons_of_mem _ hm, he, hi, hf⟩
    · rw [if_neg h] at hj'
      rcases List.mem_cons.mp hj' with heq | htl
      · push_neg at h
        exact ⟨j, List.mem_cons_self _ _, heq, h.1, h.2⟩
      · obtain ⟨j0, hm, he, hi, hf⟩ := ih _ _ j' htl
        exact ⟨j0, List.mem_cons_of_mem _ hm, he,
          fun hin => hi (List.mem_cons_of_mem _ hin),
          fun hin => hf (List.mem_cons_of_mem _ hin)⟩

/-- The pass never emits two records with the same id, nor two with the
same fingerprint. -/
theorem filterDupGo_nodup (hash : String → String) :
    ∀ (l : List Job) (si sf : List String),
      ((filterDuplicatesGo hash si sf l).map Job.id).Nodup ∧
      ((filterDuplicatesGo hash si sf l).map Job.fingerprint).Nodup := by
  intro l
  induction l with
  | nil =>
    intro si sf
    exact ⟨List.nodup_nil, List.nodup_nil⟩
  | cons j tl ih =>
    intro si sf
    simp only [filterDuplicatesGo]
    by_cases h : enrichedId hash j ∈ si ∨ enrichedFp hash j ∈ sf
    · rw [if_pos h]
      exact ih si sf
    · rw [if_neg h]
      rw [List.map_cons, List.map_cons]
      constructor
      · rw [List.nodup_cons]
        refine ⟨?_, (ih _ _).1⟩
        intro hin
        obtain ⟨j'', hj'', hide⟩ := List.mem_map.mp hin
        obtain ⟨j0, _, he, hi0, _⟩ := filterDupGo_mem hash tl _ _ j'' hj''
        rw [he] at hide
        have : enrichedId hash j0 = enrichedId hash j := by
          exact Option.some.inj hide
        exact hi0 (this ▸ List.mem_cons_self _ _)
      · rw [List.nodup_cons]
        refine ⟨?_, (ih _ _).2⟩
        intro hin
        obtain ⟨j'', hj'', hide⟩ := List.mem_map.mp hin
        obtain ⟨j0, _, he, _, hf0⟩ := filterDupGo_mem hash tl _ _ j'' hj''
        rw [he] at hide
        have : enrichedFp hash j0 = enrichedFp hash j := by
          exact Option.some.inj hide
        exact hf0 (this ▸ List.mem_cons_self _ _)

/-- A record whose id and fingerprint are fresh relative to the seen sets
and to everything before it survives the pass. -/
theorem filterDupGo_first (hash : String → String) (j : Job) (post : List Job) :
    ∀ (pre : List Job) (si sf : List String),
      enrichedId hash j ∉ si → enrichedFp hash j ∉ sf →
      (∀ j0 ∈ pre, enrichedId hash j0 ≠ enrichedId hash j ∧
        enrichedFp hash j0 ≠ enrichedFp hash j) →
      enrichJobIds hash j ∈ filterDuplicatesGo hash si sf (pre ++ j :: post) := by
  intro pre
  induction pre with
  | nil =>
    intro si sf hi hf _
    simp only [List.nil_append, filterDuplicatesGo]
    rw [if_neg (by push_neg; exact ⟨hi, hf⟩)]
    exact List.mem_cons_self _ _
  | cons p pre' ih =>
    intro si sf hi hf hpre
    simp only [List.cons_append, filterDuplicatesGo]
    by_cases h : enrichedId hash p ∈ si ∨ enrichedFp hash p ∈ sf
    · rw [if_pos h]
      exact ih si sf hi hf fun j0 hj0 => hpre j0 (List.mem_cons_of_mem _ hj0)
    · rw [if_neg h]
      refine List.mem_cons_of_mem _ (ih _ _ ?_ ?_
        fun j0 hj0 => hpre j0 (List.mem_cons_of_mem _ hj0))
      · intro hin
        rcases List.mem_cons.mp hin with heq | hmem
        · exact (hpre p (List.mem_cons_self _ _)).1 heq.symm
        · exact hi hmem
      · intro hin
        rcases List.mem_cons.mp hin with heq | hmem
        · exact (hpre p (List.mem_cons_self _ _)).2 heq.symm
        · exact hf hmem

/-- Every input record is represented in the output: either its id or its
fingerprint was already seen, or some output record carries it. -/
theorem filterDupGo_complete (hash : String → String) :
    ∀ (l : List Job) (si sf : List String) (j : Job), j ∈ l →
      (enrichedId hash j ∈ si ∨ enrichedFp hash j ∈ sf) ∨
      ∃ j' ∈ filterDuplicatesGo hash si sf l,
        j'.id = some (enrichedId hash j) ∨
        j'.fingerprint = some (enrichedFp hash j) := by
  intro l
  induction l with
  | nil =>
    intro si sf j hj
    exact absurd hj (List.not_mem_nil j)
  | cons x tl ih =>
    intro si sf j hj
    simp only [filterDuplicatesGo]
    by_cases h : enrichedId hash x ∈ si ∨ enrichedFp hash x ∈ sf
    · rw [if_pos h]
      rcases List.mem_cons.mp hj with heq | hmem
      · subst heq
        exact Or.inl h
      · exact ih si sf j hmem
    · rw [if_neg h]
      rcases List.mem_cons.mp hj with heq | hmem
      · subst heq
        exact Or.inr ⟨enrichJobIds hash j, List.mem_cons_self _ _, Or.inl rfl⟩
      · rcases ih (enrichedId hash x :: si) (enrichedFp hash x :: sf) j hmem with hseen | hfound
        · rcases hseen with hidm | hfpm
          · rcases List.mem_cons.mp hidm with heq2 | hmem2
            · exact Or.inr ⟨enrichJobIds hash x, List.mem_cons_self _ _,
                Or.inl (by rw [heq2]; rfl)⟩
            · exact Or.inl (Or.inl hmem2)
          · rcases List.mem_cons.mp hfpm with heq2 | hmem2
            · exact Or.inr ⟨enrichJobIds hash x, List.mem_cons_self _ _,
                Or.inr (by rw [heq2]; rfl)⟩
            · exact Or.inl (Or.inr hmem2)
        · obtain ⟨j', hj', hcarry⟩ := hfound
          exact Or.inr ⟨j', List.mem_cons_of_mem _ hj', hcarry⟩

/-- C4: `filterDuplicates` makes one order-preserving pass (the output is a
subsequence of the in-place enriched input), never emits two records
sharing an id or a fingerprint, keeps any record neither of whose id and
fingerprint occurred earlier (so the first occurrence survives), and drops
only records whose id or fingerprint is carried by some surviving record. -/
theorem filterDuplicates_spec (hash : String → String) (jobs : List Job) :
    List.Sublist (filterDuplicates hash jobs) (jobs.map (enrichJobIds hash)) ∧
    ((filterDuplicates hash jobs).map Job.id).Nodup ∧
    ((filterDuplicates hash jobs).map Job.fingerprint).Nodup ∧
    (∀ pre j post, jobs = pre ++ j :: post →
      (∀ j0 ∈ pre, enrichedId hash j0 ≠ enrichedId hash j ∧
        enrichedFp hash j0 ≠ enrichedFp hash j) →
      enrichJobIds hash j ∈ filterDuplicates hash jobs) ∧
    (∀ j ∈ jobs, ∃ j' ∈ filterDuplicates hash jobs,
      j'.id = some (enrichedId hash j) ∨
      j'.fingerprint = some (enrichedFp hash j)) := by
  refine ⟨filterDupGo_sublist hash jobs [] [],
    (filterDupGo_nodup hash jobs [] []).1,
    (filterDupGo_nodup hash jobs [] []).2, ?_, ?_⟩
  · intro pre j post hsplit hpre
    rw [hsplit]
    exact filterDupGo_first hash j post pre [] []
      (List.not_mem_nil _) (List.not_mem_nil _) hpre
  · intro j hj
    rcases filterDupGo_complete hash jobs [] [] j hj with hseen | hfound
    · rcases hseen with h | h
      · exact absurd h (List.not_mem_nil _)
      · exact absurd h (List.not_mem_nil _)
    · exact hfound

/-- Witness for C4: two records sharing a fingerprint but not an id — only
the first survives (it is kept, and output fingerprints are duplicate-free). -/
theorem filterDuplicates_spec_witness :
    enrichJobIds (fun s => s) { id := some "1", fingerprint := some "f" } ∈
      filterDuplicates (fun s => s)
        [{ id := some "1", fingerprint := some "f" },
         { id := some "2", fingerprint := some "f" }] ∧
    ((filterDuplicates (fun s => s)
        [({ id := some "1", fingerprint := some "f" } : Job),
         { id := some "2", fingerprint := some "f" }]).map Job.fingerprint).Nodup :=
  ⟨(filterDuplicates_spec (fun s => s) _).2.2.2.1 []
      { id := some "1", fingerprint := some "f" }
      [{ id := some "2", fingerprint := some "f" }] rfl
      (fun j0 h => absurd h (List.not_mem_nil j0)),
   (filterDuplicates_spec (fun s => s) _).2.2.1⟩

/-- C6: when two apply URLs parse to the same host and the same path up to
one trailing slash (so they differ only in query string and/or that
slash), both URL-based id functions give the two jobs the same ID. -/
theorem jobId_url_invariance (j1 j2 : Job) (u1 u2 host path1 path2 : String)
    (hj1 : j1.url = none) (hj2 : j2.url = none)
    (ha1 : j1.job_apply_link = some u1) (hne1 : u1 ≠ "")
    (ha2 : j2.job_apply_link = some u2) (hne2 : u2 ≠ "")
    (hp1 : miniUrlParse u1 = some (host, path1))
    (hp2 : miniUrlParse u2 = some (host, path2))
    (heq : stripTrailingSlash path1 = stripTrailingSlash path2) :
    generateJobId_jp j1 = generateJobId_jp j2 ∧
    generateJobIdFromUrl j1 = generateJobIdFromUrl j2 := by
  constructor
  · unfold generateJobId_jp
    rw [ha1, ha2]
    simp only [if_neg hne1, if_neg hne2, hp1, hp2]
    unfold urlBasedId
    rw [heq]
  · unfold generateJobIdFromUrl
    rw [hj1, hj2, ha1, ha2]
    simp only [firstTruthy, if_neg hne1, if_neg hne2, hp1, hp2]
    unfold urlBasedId
    rw [heq]

/-- Witness for C6: a query string and a trailing slash normalize away. -/
theorem jobId_url_invariance_witness :
    generateJobId_jp { job_apply_link := some "https://acme.com/jobs/42?ref=1" } =
      generateJobId_jp { job_apply_link := some "https://acme.com/jobs/42/" } ∧
    generateJobId_jp { job_apply_link := some "https://acme.com/jobs/42?ref=1" } =
      "acme-com-jobs-42" := by
  constructor
  · exact (jobId_url_invariance
      { job_apply_link := some "https://acme.com/jobs/42?ref=1" }
      { job_apply_link := some "https://acme.com/jobs/42/" }
      "https://acme.com/jobs/42?ref=1" "https://acme.com/jobs/42/"
      "acme.com" "/jobs/42" "/jobs/42/"
      rfl rfl rfl (by decide) rfl (by decide) (by decide) (by decide) (by decide)).1
  · decide

theorem findSome?_eq_none_of {α β : Type} {f : α → Option β} :
    ∀ {l : List α}, (∀ a ∈ l, f a = none) → l.findSome? f = none := by
  intro l
  induction l with
  | nil => intro _; rfl
  | cons a as ih =>
    intro h
    simp only [List.findSome?]
    rw [h a (List.mem_cons_self _ _)]
    exact ih fun x hx => h x (List.mem_cons_of_mem _ hx)

theorem findSome?_some_spec {α β : Type} {f : α → Option β} :
    ∀ {l : List α} {b : β}, l.findSome? f = some b → ∃ a ∈ l, f a = some b := by
  intro l
  induction l with
  | nil => intro b h; cases h
  | cons a as ih =>
    intro b h
    simp only [List.findSome?] at h
    cases hfa : f a with
    | some b0 =>
      rw [hfa] at h
      cases h
      exact ⟨a, List.mem_cons_self _ _, hfa⟩
    | none =>
      rw [hfa] at h
      obtain ⟨x, hx, hfx⟩ := ih h
      exact ⟨x, List.mem_cons_of_mem _ hx, hfx⟩

/-- Boolean prefix test as an existential split. -/
theorem listIsPrefixOfB_iff :
    ∀ (a b : List Char), listIsPrefixOfB a b = true ↔ ∃ t, b = a ++ t := by
  intro a
  induction a with
  | nil =>
    intro b
    simp [listIsPrefixOfB]
  | cons a1 as ih =>
    intro b
    cases b with
    | nil =>
      simp [listIsPrefixOfB]
    | cons b1 bs =>
      simp only [listIsPrefixOfB, Bool.and_eq_true, decide_eq_true_eq, ih bs]
      constructor
      · rintro ⟨rfl, t, rfl⟩
        exact ⟨t, rfl⟩
      · rintro ⟨t, ht⟩
        injection ht with h1 h2
        exact ⟨h1.symm, t, h2⟩

/-- A successful token match is a non-empty alternative that prefixes the
input. -/
theorem tokMatchAt_some_spec {alts : List (List Char)} {prev : Option Char}
    {l alt : List Char} (h : tokMatchAt alts prev l = some alt) :
    alt ∈ alts ∧ alt ≠ [] ∧ listIsPrefixOfB alt l = true := by
  obtain ⟨a, ha, hfa⟩ := findSome?_some_spec h
  cases a with
  | nil => cases hfa
  | cons a1 rest =>
    dsimp only at hfa
    split at hfa
    · cases hfa
      rename_i hg
      refine ⟨ha, List.cons_ne_nil _ _, ?_⟩
      rw [Bool.and_eq_true, Bool.and_eq_true] at hg
      exact hg.1.1
    · cases hfa

theorem replaceTokensFuel_nil (alts : List (List Char)) (repl : List Char)
    (f : Nat) (prev : Option Char) :
    replaceTokensFuel alts repl f prev [] = [] := by
  cases f <;> rfl

/-- Any two sufficient fuels agree. -/
theorem replaceTokensFuel_congr (alts : List (List Char)) (repl : List Char) :
    ∀ (f1 f2 : Nat) (prev : Option Char) (l : List Char),
      l.length ≤ f1 → l.length ≤ f2 →
      replaceTokensFuel alts repl f1 prev l = replaceTokensFuel alts repl f2 prev l := by
  intro f1
  induction f1 with
  | zero =>
    intro f2 prev l h1 _
    have : l = [] := List.length_eq_zero.mp (Nat.le_zero.mp h1)
    subst this
    rw [replaceTokensFuel_nil, replaceTokensFuel_nil]
  | succ n ih =>
    intro f2 prev l h1 h2
    cases l with
    | nil => rw [replaceTokensFuel_nil, replaceTokensFuel_nil]
    | cons c cs =>
      cases f2 with
      | zero =>
        exact absurd h2 (by simp)
      | succ m =>
        simp only [replaceTokensFuel]
        cases hm : tokMatchAt alts prev (c :: cs) with
        | some alt =>
          have halt := tokMatchAt_some_spec hm
          have hpos : 0 < alt.length := List.length_pos.mpr halt.2.1
          dsimp only
          congr 1
          apply ih
          · simp only [List.length_drop, List.length_cons]
            simp only [List.length_cons] at h1
            omega
          · simp only [List.length_drop, List.length_cons]
            simp only [List.length_cons] at h2
            omega
        | none =>
          dsimp only
          congr 1
          apply ih
          · simp only [List.length_cons] at h1
            omega
          · simp only [List.length_cons] at h2
            omega

theorem scanT_nil (alts : List (List Char)) (repl : List Char) (prev : Option Char) :
    scanT alts repl prev [] = [] := rfl

theorem scanT_cons_none {alts : List (List Char)} {repl : List Char}
    {prev : Option Char} {c : Char} {cs : List Char}
    (h : tokMatchAt alts prev (c :: cs) = none) :
    scanT alts repl prev (c :: cs) = c :: scanT alts repl (some c) cs := by
  unfold scanT
  show replaceTokensFuel alts repl (cs.length + 1) prev (c :: cs) = _
  simp only [replaceTokensFuel, h]

theorem scanT_cons_some {alts : List (List Char)} {repl : List Char}
    {prev : Option Char} {c : Char} {cs alt : List Char}
    (h : tokMatchAt alts prev (c :: cs) = some alt) :
    scanT alts repl prev (c :: cs) =
      repl ++ scanT alts repl (some (alt.getLastD c)) ((c :: cs).drop alt.length) := by
  have halt := tokMatchAt_some_spec h
  have hpos : 0 < alt.length := List.length_pos.mpr halt.2.1
  unfold scanT
  show replaceTokensFuel alts repl (cs.length + 1) prev (c :: cs) = _
  simp only [replaceTokensFuel, h]
  congr 1
  apply replaceTokensFuel_congr
  · simp only [List.length_drop, List.length_cons]
    omega
  · exact Nat.le_refl _

theorem getLastD_mem {α : Type} : ∀ (l : List α) (a d : α), (a :: l).getLastD d ∈ a :: l := by
  intro l
  induction l with
  | nil =>
    intro a d
    rw [List.getLastD_cons]
    exact List.mem_cons_self _ _
  | cons b t ih =>
    intro a d
    rw [List.getLastD_cons]
    exact List.mem_cons_of_mem _ (ih b a)

/-- After a word character, no alternative can match (its leading `\b`
fails). -/
theorem tokMatchAt_none_of_word_prev {alts : List (List Char)} (hA : AltsSpec alts)
    {p : Char} (hw : isWordChar p = true) (l : List Char) :
    tokMatchAt alts (some p) l = none := by
  unfold tokMatchAt
  apply findSome?_eq_none_of
  intro a ha
  cases a with
  | nil => rfl
  | cons a1 arest =>
    have h1 : isWordChar a1 = true := by
      have := hA.headWord _ ha
      simpa [wordB] using this
    have hb : boundaryOk (some p) (some a1) = false := by
      simp [boundaryOk, wordB, hw, h1]
    simp [hb]

/-- No alternative starts with a space, so nothing matches at a space. -/
theorem tokMatchAt_none_space {alts : List (List Char)} (hA : AltsSpec alts)
    (prev : Option Char) (l : List Char) :
    tokMatchAt alts prev (' ' :: l) = none := by
  unfold tokMatchAt
  apply findSome?_eq_none_of
  intro a ha
  cases a with
  | nil => rfl
  | cons a1 arest =>
    have h1 : isWordChar a1 = true := by
      have := hA.headWord _ ha
      simpa [wordB] using this
    have hne : a1 ≠ ' ' := by
      intro h
      rw [h] at h1
      exact absurd h1 (by decide)
    have hp : listIsPrefixOfB (a1 :: arest) (' ' :: l) = false := by
      simp [listIsPrefixOfB, hne]
    simp [hp]

/-- At the start of a clean word that is not itself an alternative, nothing
matches: a shorter alternative fails its trailing `\b` inside the word, a
longer one would have to contain the following space or run past the end. -/
theorem tokMatchAt_none_word_start {alts : List (List Char)} (hA : AltsSpec alts)
    {w rest : List Char} (prev : Option Char) (_hne : w ≠ [])
    (hcc : ∀ c ∈ w, isWordChar c = true) (hmem : w ∉ alts)
    (hrest : rest = [] ∨ ∃ r', rest = ' ' :: r') :
    tokMatchAt alts prev (w ++ rest) = none := by
  unfold tokMatchAt
  apply findSome?_eq_none_of
  intro a ha
  cases a with
  | nil => rfl
  | cons a1 arest =>
    by_cases hp : listIsPrefixOfB (a1 :: arest) (w ++ rest) = true
    · obtain ⟨t, ht⟩ := (listIsPrefixOfB_iff _ _).mp hp
      rcases List.append_eq_append_iff.mp ht with ⟨a', hc, hr⟩ | ⟨c', hw', ht'⟩
      · -- the alternative extends past the word
        cases a' with
        | nil =>
          rw [List.append_nil] at hc
          exact absurd (by rw [← hc]; exact ha) hmem
        | cons e etl =>
          exfalso
          rcases hrest with hre | ⟨r', hre⟩
          · rw [hre] at hr
            cases hr
          · rw [hre] at hr
            rw [List.cons_append] at hr
            injection hr with h1 _
            have : ' ' ∈ (a1 :: arest) := by
              rw [hc, ← h1]
              exact List.mem_append.mpr (Or.inr (List.mem_cons_self _ _))
            exact hA.noSpace _ ha this
      · -- the alternative is a prefix of the word
        cases c' with
        | nil =>
          rw [List.append_nil] at hw'
          exact absurd (by rw [hw']; exact ha) hmem
        | cons d dtl =>
          have hdrop : (w ++ rest).drop (a1 :: arest).length = d :: (dtl ++ rest) := by
            rw [hw', List.append_assoc, List.drop_left, List.cons_append]
          have hd : isWordChar d = true := by
            apply hcc
            rw [hw']
            exact List.mem_append.mpr (Or.inr (List.mem_cons_self _ _))
          have hlast : isWordChar ((a1 :: arest).getLastD a1) = true := by
            apply hcc
            rw [hw']
            exact List.mem_append.mpr (Or.inl (getLastD_mem _ _ _))
          have hb : boundaryOk (some ((a1 :: arest).getLastD a1))
              ((w ++ rest).drop (a1 :: arest).length).head? = false := by
            rw [hdrop]
            show (wordB (some ((a1 :: arest).getLastD a1)) != wordB (some d)) = false
            have e1 : wordB (some ((a1 :: arest).getLastD a1)) = true := hlast
            have e2 : wordB (some d) = true := hd
            rw [e1, e2]
            rfl
          dsimp only
          rw [hb, Bool.and_false]
          rfl
    · have hp' : listIsPrefixOfB (a1 :: arest) (w ++ rest) = false :=
        Bool.eq_false_iff.mpr hp
      simp [hp']

/-- Scanning passes over the interior of a word unchanged. -/
theorem scanT_word_interior {alts : List (List Char)} {repl : List Char}
    (hA : AltsSpec alts) :
    ∀ (w rest : List Char) (p : Char), isWordChar p = true →
      (∀ c ∈ w, isWordChar c = true) →
      scanT alts repl (some p) (w ++ rest) =
        w ++ scanT alts repl (some (w.getLastD p)) rest := by
  intro w
  induction w with
  | nil =>
    intro rest p _ _
    rfl
  | cons c wtl ih =>
    intro rest p hp hcc
    rw [List.cons_append,
      scanT_cons_none (tokMatchAt_none_of_word_prev hA hp _),
      ih rest c (hcc c (List.mem_cons_self _ _))
        (fun d hd => hcc d (List.mem_cons_of_mem _ hd)),
      List.getLastD_cons, List.cons_append]

/-- Scanning passes over a whole clean word (not an alternative) unchanged. -/
theorem scanT_word_start {alts : List (List Char)} {repl : List Char}
    (hA : AltsSpec alts) {w rest : List Char} (prev : Option Char)
    (hw : CleanWord w) (hmem : w ∉ alts)
    (hrest : rest = [] ∨ ∃ r', rest = ' ' :: r') :
    scanT alts repl prev (w ++ rest) =
      w ++ scanT alts repl (some (w.getLastD ' ')) rest := by
  obtain ⟨hne, hcl⟩ := hw
  have hcc : ∀ c ∈ w, isWordChar c = true := fun c hc => (hcl c hc).1
  cases w with
  | nil => exact absurd rfl hne
  | cons c wtl =>
    have hnm : tokMatchAt alts prev (c :: (wtl ++ rest)) = none :=
      tokMatchAt_none_word_start hA prev (List.cons_ne_nil c wtl) hcc hmem hrest
    show scanT alts repl prev (c :: (wtl ++ rest)) =
      (c :: wtl) ++ scanT alts repl (some ((c :: wtl).getLastD ' ')) rest
    rw [scanT_cons_none hnm,
      scanT_word_interior hA wtl rest c (hcc c (List.mem_cons_self _ _))
        (fun d hd => hcc d (List.mem_cons_of_mem _ hd)),
      List.getLastD_cons]
    rfl

/-- Scanning passes over a block of clean words (none an alternative)
unchanged, ending in the context of the last word's last character. -/
theorem scanT_words {alts : List (List Char)} {repl : List Char}
    (hA : AltsSpec alts) :
    ∀ (ws : List (List Char)) (rest : List Char) (prev : Option Char),
      (∀ w ∈ ws, CleanWord w ∧ w ∉ alts) →
      wordB prev = false →
      (rest = [] ∨ ∃ r', rest = ' ' :: r') →
      scanT alts repl prev (wordsToChars ws ++ rest) =
        wordsToChars ws ++ scanT alts repl (wordsLastPrev ws prev) rest := by
  intro ws
  induction ws with
  | nil =>
    intro rest prev _ _ _
    rfl
  | cons w wtl ih =>
    intro rest prev hws hprev hrest
    cases wtl with
    | nil =>
      rw [show wordsToChars [w] = w from rfl,
        scanT_word_start hA prev (hws w (List.mem_cons_self _ _)).1
          (hws w (List.mem_cons_self _ _)).2 hrest]
      rfl
    | cons w2 wtl2 =>
      rw [show wordsToChars (w :: w2 :: wtl2) = w ++ ' ' :: wordsToChars (w2 :: wtl2)
          from rfl,
        List.append_assoc, List.cons_append,
        scanT_word_start hA prev (hws w (List.mem_cons_self _ _)).1
          (hws w (List.mem_cons_self _ _)).2
          (Or.inr ⟨wordsToChars (w2 :: wtl2) ++ rest, rfl⟩),
        scanT_cons_none (tokMatchAt_none_space hA _ _),
        ih rest (some ' ')
          (fun x hx => hws x (List.mem_cons_of_mem _ hx))
          (by decide) hrest]
      have hlp : wordsLastPrev (w :: w2 :: wtl2) prev =
          wordsLastPrev (w2 :: wtl2) (some ' ') := by
        unfold wordsLastPrev
        rw [List.getLast?_cons_cons]
        obtain ⟨y, hy⟩ := getLast?_isSome_of_ne_nil (List.cons_ne_nil w2 wtl2)
        rw [hy]
      rw [hlp]
      simp [List.append_assoc, List.cons_append]

theorem takeWhile_eq_self_of {p : Char → Bool} :
    ∀ {l : List Char}, (∀ c ∈ l, p c = true) → l.takeWhile p = l := by
  intro l
  induction l with
  | nil => intro _; rfl
  | cons c cs ih =>
    intro h
    rw [List.takeWhile_cons, h c (List.mem_cons_self _ _)]
    rw [ih fun x hx => h x (List.mem_cons_of_mem _ hx)]
    rfl

theorem dropWhile_cons_of_neg {p : Char → Bool} {c : Char} {t : List Char}
    (h : p c = false) : (c :: t).dropWhile p = c :: t := by
  rw [List.dropWhile_cons, h]
  rfl

/-- A list whose first and last characters are not whitespace trims to
itself. -/
theorem jsTrimList_eq_self_of_ends {l : List Char} {c d : Char}
    (hh : l.head? = some c) (hc : jsIsWs c = false)
    (hl : l.getLast? = some d) (hd : jsIsWs d = false) : jsTrimList l = l := by
  cases l with
  | nil => cases hh
  | cons a t =>
    have ha : a = c := by
      injection hh with h1
    subst ha
    unfold jsTrimList
    rw [dropWhile_cons_of_neg hc]
    cases hrev : (a :: t).reverse with
    | nil => exact absurd hrev (by simp)
    | cons e r =>
      have he : e = d := by
        have : (a :: t).reverse.head? = some d := by
          rw [List.head?_reverse]
          exact hl
        rw [hrev] at this
        injection this with h1
      subst he
      rw [dropWhile_cons_of_neg hd, ← hrev, List.reverse_reverse]

/-- Trimming removes a single leading space before clean content. -/
theorem jsTrimList_space_cons {X : List Char} {c d : Char}
    (hh : X.head? = some c) (hc : jsIsWs c = false)
    (hl : X.getLast? = some d) (hd : jsIsWs d = false) :
    jsTrimList (' ' :: X) = X := by
  unfold jsTrimList
  rw [List.dropWhile_cons]
  rw [show (jsIsWs ' ') = true from rfl]
  cases X with
  | nil => cases hh
  | cons a t =>
    have ha : a = c := by
      injection hh with h1
    subst ha
    simp only [if_true]
    rw [dropWhile_cons_of_neg hc]
    cases hrev : (a :: t).reverse with
    | nil => exact absurd hrev (by simp)
    | cons e r =>
      have he : e = d := by
        have : (a :: t).reverse.head? = some d := by
          rw [List.head?_reverse]
          exact hl
        rw [hrev] at this
        injection this with h1
      subst he
      rw [dropWhile_cons_of_neg hd, ← hrev, List.reverse_reverse]

/-- Trimming removes a single trailing space after clean content. -/
theorem jsTrimList_append_space {X : List Char} {c d : Char}
    (hh : X.head? = some c) (hc : jsIsWs c = false)
    (hl : X.getLast? = some d) (hd : jsIsWs d = false) :
    jsTrimList (X ++ [' ']) = X := by
  unfold jsTrimList
  have hfront : (X ++ [' ']).dropWhile jsIsWs = X ++ [' '] := by
    cases X with
    | nil => cases hh
    | cons a t =>
      have ha : a = c := by
        injection hh with h1
      subst ha
      rw [List.cons_append]
      exact dropWhile_cons_of_neg hc
  rw [hfront, List.reverse_append]
  show ((' ' :: X.reverse).dropWhile jsIsWs).reverse = X
  rw [List.dropWhile_cons, show (jsIsWs ' ') = true from rfl]
  simp only [if_true]
  cases hrev : X.reverse with
  | nil =>
    rw [List.reverse_eq_nil_iff] at hrev
    rw [hrev] at hh
    cases hh
  | cons e r =>
    have he : e = d := by
      have : X.reverse.head? = some d := by
        rw [List.head?_reverse]
        exact hl
      rw [hrev] at this
      injection this with h1
    subst he
    rw [dropWhile_cons_of_neg hd, ← hrev, List.reverse_reverse]

/-- The word block starts with the first word's first (clean) character. -/
theorem wordsToChars_head (ws : List (List Char)) (hws : ∀ w ∈ ws, CleanWord w)
    (hne : ws ≠ []) :
    ∃ c t, wordsToChars ws = c :: t ∧ CleanChar c := by
  cases ws with
  | nil => exact absurd rfl hne
  | cons w tl =>
    obtain ⟨hwne, hwcl⟩ := hws w (List.mem_cons_self _ _)
    cases w with
    | nil => exact absurd rfl hwne
    | cons c wt =>
      have hc : CleanChar c := hwcl c (List.mem_cons_self _ _)
      cases tl with
      | nil => exact ⟨c, wt, rfl, hc⟩
      | cons w2 tl2 => exact ⟨c, wt ++ ' ' :: wordsToChars (w2 :: tl2), rfl, hc⟩

/-- The word block ends with the last word's last (clean) character. -/
theorem wordsToChars_getLast (ws : List (List Char)) :
    (∀ w ∈ ws, CleanWord w) → ws ≠ [] →
    ∃ d, (wordsToChars ws).getLast? = some d ∧ CleanChar d := by
  induction ws with
  | nil => intro _ h; exact absurd rfl h
  | cons w tl ih =>
    intro hws _
    cases tl with
    | nil =>
      obtain ⟨hwne, hwcl⟩ := hws w (List.mem_cons_self _ _)
      obtain ⟨d, hd⟩ := getLast?_isSome_of_ne_nil hwne
      exact ⟨d, hd, hwcl d (mem_of_getLast?_eq hd)⟩
    | cons w2 tl2 =>
      obtain ⟨d, hd, hdclean⟩ := ih (fun x hx => hws x (List.mem_cons_of_mem _ hx))
        (List.cons_ne_nil _ _)
      refine ⟨d, ?_, hdclean⟩
      show (w ++ ' ' :: wordsToChars (w2 :: tl2)).getLast? = some d
      rw [getLast?_append_optOr, getLast?_cons_optOr, hd]
      rfl

/-- Every character of the word block is clean or a separating space. -/
theorem wordsToChars_chars (ws : List (List Char)) :
    (∀ w ∈ ws, CleanWord w) →
    ∀ c ∈ wordsToChars ws, c = ' ' ∨ CleanChar c := by
  induction ws with
  | nil => intro _ c hc; cases hc
  | cons w tl ih =>
    intro hws c hc
    cases tl with
    | nil => exact Or.inr ((hws w (List.mem_cons_self _ _)).2 c hc)
    | cons w2 tl2 =>
      rw [show wordsToChars (w :: w2 :: tl2) = w ++ ' ' :: wordsToChars (w2 :: tl2)
          from rfl] at hc
      rcases List.mem_append.mp hc with h | h
      · exact Or.inr ((hws w (List.mem_cons_self _ _)).2 c h)
      · rcases List.mem_cons.mp h with h' | h'
        · exact Or.inl h'
        · exact ih (fun x hx => hws x (List.mem_cons_of_mem _ hx)) c h'

/-- A hyphen-free list never has a trailing ` - suffix` clause. -/
theorem stripSuffixClause_eq_self {l : List Char} (h : ∀ c ∈ l, c ≠ '-') :
    stripSuffixClause l = l := by
  have ht : l.reverse.takeWhile (fun c => c ≠ '-') = l.reverse := by
    apply takeWhile_eq_self_of
    intro c hc
    exact decide_eq_true (h c (List.mem_reverse.mp hc))
  unfold stripSuffixClause
  dsimp only
  rw [ht]
  simp

/-- The collapsing pass is the identity on a nonempty run of non-whitespace
characters, resetting the run state. -/
theorem collapseRunsAux_nonws :
    ∀ (w : List Char) (b : Bool) (tail : List Char), w ≠ [] →
      (∀ c ∈ w, jsIsWs c = false) →
      collapseRunsAux jsIsWs ' ' b (w ++ tail) =
        w ++ collapseRunsAux jsIsWs ' ' false tail := by
  intro w
  induction w with
  | nil => intro b tail h _; exact absurd rfl h
  | cons c wt ih =>
    intro b tail _ hcc
    rw [List.cons_append]
    show collapseRunsAux jsIsWs ' ' b (c :: (wt ++ tail)) = _
    rw [collapseRunsAux]
    rw [hcc c (List.mem_cons_self _ _)]
    simp only [Bool.false_eq_true, if_false]
    cases wt with
    | nil => rfl
    | cons c2 wt2 =>
      rw [ih false tail (List.cons_ne_nil _ _)
        (fun x hx => hcc x (List.mem_cons_of_mem _ hx))]
      rfl

/-- The collapsing pass is the identity on a block of clean words. -/
theorem collapse_words (ws : List (List Char)) :
    ∀ (b : Bool) (tail : List Char), (∀ w ∈ ws, CleanWord w) → ws ≠ [] →
      collapseRunsAux jsIsWs ' ' b (wordsToChars ws ++ tail) =
        wordsToChars ws ++ collapseRunsAux jsIsWs ' ' false tail := by
  induction ws with
  | nil => intro b tail _ h; exact absurd rfl h
  | cons w tl ih =>
    intro b tail hws _
    have hw := hws w (List.mem_cons_self _ _)
    have hnonws : ∀ c ∈ w, jsIsWs c = false := fun c hc => (hw.2 c hc).2.1
    cases tl with
    | nil => exact collapseRunsAux_nonws w b tail hw.1 hnonws
    | cons w2 tl2 =>
      show collapseRunsAux jsIsWs ' ' b ((w ++ ' ' :: wordsToChars (w2 :: tl2)) ++ tail) = _
      rw [List.append_assoc, collapseRunsAux_nonws w b _ hw.1 hnonws,
        List.cons_append]
      rw [show collapseRunsAux jsIsWs ' ' false (' ' :: (wordsToChars (w2 :: tl2) ++ tail)) =
        ' ' :: collapseRunsAux jsIsWs ' ' true (wordsToChars (w2 :: tl2) ++ tail) by
          rw [collapseRunsAux]
          rfl]
      rw [ih true tail (fun x hx => hws x (List.mem_cons_of_mem _ hx)) (List.cons_ne_nil _ _)]
      rw [show wordsToChars (w :: w2 :: tl2) = w ++ ' ' :: wordsToChars (w2 :: tl2) from rfl,
        List.append_assoc, List.cons_append]

/-- The shared-utils title pipeline maps `"Senior X"` to the clean base
title `X`. -/
theorem fpTitle_senior (ws : List (List Char)) (Xraw : String)
    (hws : ∀ w ∈ ws, CleanWord w ∧ w ∉ seniorityAlts.map String.data ∧
      w ∉ romanAlts.map String.data)
    (hne : ws ≠ [])
    (hX : (jsToLower Xraw).data = wordsToChars ws) :
    fpTitleNormalize ("Senior " ++ Xraw) = String.mk (wordsToChars ws) := by
  have hAs : AltsSpec (seniorityAlts.map String.data) := ⟨by decide, by decide, by decide⟩
  have hAr : AltsSpec (romanAlts.map String.data) := ⟨by decide, by decide, by decide⟩
  have hcleanws : ∀ w ∈ ws, CleanWord w := fun w hw => (hws w hw).1
  obtain ⟨c0, t0, hXhead, hc0⟩ := wordsToChars_head ws hcleanws hne
  obtain ⟨d0, hXlast, hd0⟩ := wordsToChars_getLast ws hcleanws hne
  have hlow : (jsToLower ("Senior " ++ Xraw)).data = "senior ".data ++ wordsToChars ws := by
    show ("Senior " ++ Xraw).data.map Char.toLower = _
    rw [show ("Senior " ++ Xraw).data = "Senior ".data ++ Xraw.data from rfl,
      List.map_append,
      show "Senior ".data.map Char.toLower = "senior ".data from rfl,
      show Xraw.data.map Char.toLower = (jsToLower Xraw).data from rfl, hX]
  have htrim0 : jsTrimList ("senior ".data ++ wordsToChars ws) =
      "senior ".data ++ wordsToChars ws := by
    apply jsTrimList_eq_self_of_ends (c := 's') (d := d0)
    · rfl
    · decide
    · rw [getLast?_append_optOr, hXlast]
      rfl
    · exact hd0.2.1
  have hsen : scanT (seniorityAlts.map String.data) [] none
      ("senior ".data ++ wordsToChars ws) = ' ' :: wordsToChars ws := by
    have hm : tokMatchAt (seniorityAlts.map String.data) none
        ('s' :: 'e' :: 'n' :: 'i' :: 'o' :: 'r' :: ' ' :: wordsToChars ws) =
        some ['s', 'e', 'n', 'i', 'o', 'r'] := rfl
    show scanT (seniorityAlts.map String.data) []
      none ('s' :: 'e' :: 'n' :: 'i' :: 'o' :: 'r' :: ' ' :: wordsToChars ws) = _
    rw [scanT_cons_some hm]
    show scanT (seniorityAlts.map String.data) [] (some 'r') (' ' :: wordsToChars ws) = _
    rw [scanT_cons_none (tokMatchAt_none_space hAs _ _)]
    have hwords := @scanT_words _ [] hAs ws [] (some ' ')
      (fun w hw => ⟨(hws w hw).1, (hws w hw).2.1⟩) (by decide) (Or.inl rfl)
    rw [List.append_nil, scanT_nil, List.append_nil] at hwords
    rw [hwords]
  have hrom : scanT (romanAlts.map String.data) [] none (' ' :: wordsToChars ws) =
      ' ' :: wordsToChars ws := by
    rw [scanT_cons_none (tokMatchAt_none_space hAr _ _)]
    have hwords := @scanT_words _ [] hAr ws [] (some ' ')
      (fun w hw => ⟨(hws w hw).1, (hws w hw).2.2⟩) (by decide) (Or.inl rfl)
    rw [List.append_nil, scanT_nil, List.append_nil] at hwords
    rw [hwords]
  have hstrip : stripSuffixClause (' ' :: wordsToChars ws) = ' ' :: wordsToChars ws := by
    apply stripSuffixClause_eq_self
    intro c hc
    rcases List.mem_cons.mp hc with h | h
    · rw [h]
      decide
    · rcases wordsToChars_chars ws hcleanws c h with h' | h'
      · rw [h']
        decide
      · exact h'.2.2.1
  have hcol : collapseRuns jsIsWs ' ' (' ' :: wordsToChars ws) =
      ' ' :: wordsToChars ws := by
    unfold collapseRuns
    rw [show collapseRunsAux jsIsWs ' ' false (' ' :: wordsToChars ws) =
      ' ' :: collapseRunsAux jsIsWs ' ' true (wordsToChars ws) from rfl]
    have hcw := collapse_words ws true [] hcleanws hne
    rw [List.append_nil, show collapseRunsAux jsIsWs ' ' false [] = [] from rfl,
      List.append_nil] at hcw
    rw [hcw]
  have htrimF : jsTrimList (' ' :: wordsToChars ws) = wordsToChars ws :=
    jsTrimList_space_cons (by rw [hXhead]; rfl) hc0.2.1 hXlast hd0.2.1
  unfold fpTitleNormalize
  dsimp only
  rw [hlow, htrim0, hsen, hrom, hstrip, hcol, htrimF]

/-- The shared-utils title pipeline maps `"X II"` to the clean base
title `X`. -/
theorem fpTitle_version (ws : List (List Char)) (Xraw : String)
    (hws : ∀ w ∈ ws, CleanWord w ∧ w ∉ seniorityAlts.map String.data ∧
      w ∉ romanAlts.map String.data)
    (hne : ws ≠ [])
    (hX : (jsToLower Xraw).data = wordsToChars ws) :
    fpTitleNormalize (Xraw ++ " II") = String.mk (wordsToChars ws) := by
  have hAs : AltsSpec (seniorityAlts.map String.data) := ⟨by decide, by decide, by decide⟩
  have hAr : AltsSpec (romanAlts.map String.data) := ⟨by decide, by decide, by decide⟩
  have hcleanws : ∀ w ∈ ws, CleanWord w := fun w hw => (hws w hw).1
  obtain ⟨c0, t0, hXhead, hc0⟩ := wordsToChars_head ws hcleanws hne
  obtain ⟨d0, hXlast, hd0⟩ := wordsToChars_getLast ws hcleanws hne
  have hlow : (jsToLower (Xraw ++ " II")).data = wordsToChars ws ++ [' ', 'i', 'i'] := by
    show (Xraw ++ " II").data.map Char.toLower = _
    rw [show (Xraw ++ " II").data = Xraw.data ++ " II".data from rfl,
      List.map_append,
      show Xraw.data.map Char.toLower = (jsToLower Xraw).data from rfl, hX,
      show " II".data.map Char.toLower = [' ', 'i', 'i'] from rfl]
  have htrim0 : jsTrimList (wordsToChars ws ++ [' ', 'i', 'i']) =
      wordsToChars ws ++ [' ', 'i', 'i'] := by
    apply jsTrimList_eq_self_of_ends (c := c0) (d := 'i')
    · rw [hXhead]
      rfl
    · exact hc0.2.1
    · rw [getLast?_append_optOr]
      rfl
    · decide
  have hsen : scanT (seniorityAlts.map String.data) [] none
      (wordsToChars ws ++ [' ', 'i', 'i']) = wordsToChars ws ++ [' ', 'i', 'i'] := by
    rw [@scanT_words _ [] hAs ws [' ', 'i', 'i'] none
      (fun w hw => ⟨(hws w hw).1, (hws w hw).2.1⟩) (by decide)
      (Or.inr ⟨['i', 'i'], rfl⟩)]
    rfl
  have hrom : scanT (romanAlts.map String.data) [] none
      (wordsToChars ws ++ [' ', 'i', 'i']) = wordsToChars ws ++ [' '] := by
    rw [@scanT_words _ [] hAr ws [' ', 'i', 'i'] none
      (fun w hw => ⟨(hws w hw).1, (hws w hw).2.2⟩) (by decide)
      (Or.inr ⟨['i', 'i'], rfl⟩)]
    rfl
  have hstrip : stripSuffixClause (wordsToChars ws ++ [' ']) =
      wordsToChars ws ++ [' '] := by
    apply stripSuffixClause_eq_self
    intro c hc
    rcases List.mem_append.mp hc with h | h
    · rcases wordsToChars_chars ws hcleanws c h with h' | h'
      · rw [h']
        decide
      · exact h'.2.2.1
    · rw [List.mem_singleton.mp h]
      decide
  have hcol : collapseRuns jsIsWs ' ' (wordsToChars ws ++ [' ']) =
      wordsToChars ws ++ [' '] := by
    unfold collapseRuns
    have hcw := collapse_words ws false [' '] hcleanws hne
    rw [show collapseRunsAux jsIsWs ' ' false [' '] = [' '] from rfl] at hcw
    exact hcw
  have htrimF : jsTrimList (wordsToChars ws ++ [' ']) = wordsToChars ws :=
    jsTrimList_append_space (by rw [hXhead]; rfl) hc0.2.1 hXlast hd0.2.1
  unfold fpTitleNormalize
  dsimp only
  rw [hlow, htrim0, hsen, hrom, hstrip, hcol, htrimF]

/-- C5 counterexample: the `job-processor.js` fingerprint does not strip
version tokens — `"Senior Software Engineer"` and `"Software Engineer II"`
fingerprint differently there. -/
theorem generateJobFingerprint_jp_counterexample :
    generateJobFingerprint_jp
      { job_title := some "Senior Software Engineer",
        employer_name := some "Google", job_city := some "SF" } ≠
    generateJobFingerprint_jp
      { job_title := some "Software Engineer II",
        employer_name := some "Google", job_city := some "SF" } := by decide

/-- C5 (amended): for jobs with equal company and location whose effective
titles are `"Senior X"` and `"X II"` for a base title `X` lowercasing to
space-separated clean words (none itself a seniority/version token), the
shared-utils `generateJobFingerprint` yields the same fingerprint. -/
theorem fingerprint_seniority_invariance (j1 j2 : Job)
    (ws : List (List Char)) (Xraw : String)
    (hws : ∀ w ∈ ws, CleanWord w ∧ w ∉ seniorityAlts.map String.data ∧
      w ∉ romanAlts.map String.data)
    (hne : ws ≠ [])
    (hX : (jsToLower Xraw).data = wordsToChars ws)
    (h1 : firstTruthy [j1.title, j1.job_title] = "Senior " ++ Xraw)
    (h2 : firstTruthy [j2.title, j2.job_title] = Xraw ++ " II")
    (hc : firstTruthy [j1.company_name, j1.employer_name, j1.company] =
      firstTruthy [j2.company_name, j2.employer_name, j2.company])
    (hl : fpLocation j1 = fpLocation j2) :
    generateJobFingerprint_utils j1 = generateJobFingerprint_utils j2 := by
  unfold generateJobFingerprint_utils
  dsimp only
  rw [h1, h2, hc, hl, fpTitle_senior ws Xraw hws hne hX,
    fpTitle_version ws Xraw hws hne hX]

/-- Witness for C5: `"Senior Software Engineer"` and
`"Software Engineer II"` at Google/SF share the shared-utils fingerprint. -/
theorem fingerprint_seniority_invariance_witness :
    generateJobFingerprint_utils
      { job_title := some "Senior Software Engineer",
        employer_name := some "Google", job_city := some "SF" } =
    generateJobFingerprint_utils
      { job_title := some "Software Engineer II",
        employer_name := some "Google", job_city := some "SF" } :=
  fingerprint_seniority_invariance _ _
    [['s', 'o', 'f', 't', 'w', 'a', 'r', 'e'], ['e', 'n', 'g', 'i', 'n', 'e', 'e', 'r']]
    "Software Engineer"
    (by decide) (by decide) (by decide) (by decide) (by decide) (by decide) (by decide)

/-- C7: the identity functions raise their explicit error exactly on a null
job; on any non-null job they return a string, with missing fields
normalized to the empty string (the all-empty job hashes `"||"` for the id
and `"||||"` for the fingerprint). -/
theorem identity_null_check (hash : String → String) :
    generateJobIdChecked hash none = .error "Job object is required" ∧
    generateFingerprintChecked hash none = .error "Job object is required" ∧
    (∀ j : Job, generateJobIdChecked hash (some j) = .ok (generateJobIdOfJob hash j)) ∧
    (∀ j : Job, generateFingerprintChecked hash (some j) =
      .ok (generateFingerprintOfJob hash j)) ∧
    generateJobIdChecked hash (some {}) = .ok ((hash "||").take 8) ∧
    generateFingerprintChecked hash (some {}) = .ok (hash "||||") :=
  ⟨rfl, rfl, fun _ => rfl, fun _ => rfl, rfl, rfl⟩

/-- All keywords a config's experience-level tables can match on. -/
def expConfigKeywords : Option ExperienceLevelsConfig → List String
  | none => []
  | some l => l.senior.getD [] ++ l.entry.getD [] ++ l.mid.getD []

/-- A level keyword table with no occurring keyword never matches. -/
theorem levelMatches_eq_false {o : Option (List String)} {text : String}
    (h : ∀ kw ∈ o.getD [], jsIncludes text kw = false) :
    levelMatches o text = false := by
  cases o with
  | none => rfl
  | some kws =>
    simp only [levelMatches]
    exact List.any_eq_false.mpr fun kw hkw => by
      rw [h kw hkw]
      exact fun hc => Bool.false_ne_true hc

/-- C8: when no keyword of any category table or experience-level table
(caller-supplied config tables and the builtin fallbacks alike) occurs in
the lowercased title+description, `getJobCategory` returns
`"Software Engineering"` and `getExperienceLevel` returns `"Entry-Level"`. -/
theorem classifier_defaults (config : Option UtilsConfig) (title description : String)
    (hcat : ∀ p ∈ (configKeywords config).getD [],
      ∀ kw ∈ p.2, jsIncludes (classifyText title description) kw = false)
    (hcatB : ∀ p ∈ builtinCategoryTable,
      ∀ kw ∈ p.2, jsIncludes (classifyText title description) kw = false)
    (hexp : ∀ kw ∈ expConfigKeywords (configExperienceLevels config) ++
      builtinSeniorLevelKeywords ++ builtinEntryLevelKeywords,
      jsIncludes (classifyText title description) kw = false) :
    getJobCategory config title description = "Software Engineering" ∧
    getExperienceLevel config title description = "Entry-Level" := by
  have text := classifyText title description
  constructor
  · have hbuiltin : builtinCategory (classifyText title description) = "Software Engineering" := by
      unfold builtinCategory
      rw [lookupFirstMatch_eq_none hcatB]
      rfl
    unfold getJobCategory
    cases hck : configKeywords config with
    | none => simpa using hbuiltin
    | some table =>
      have htab : ∀ p ∈ table,
          ∀ kw ∈ p.2, jsIncludes (classifyText title description) kw = false := by
        intro p hm
        exact hcat p (by rw [hck]; exact hm)
      simp only [lookupFirstMatch_eq_none htab]
      simpa using hbuiltin
  · have hdef : defaultExperienceLevel (classifyText title description) = "Entry-Level" := by
      unfold defaultExperienceLevel
      rw [if_neg]
      · cases hE : builtinEntryLevelKeywords.any
          (fun kw => jsIncludes (classifyText title description) kw) <;> simp
      · intro hany
        obtain ⟨kw, hkw, hinc⟩ := List.any_eq_true.mp hany
        have := hexp kw (by
          refine List.mem_append.mpr (Or.inl ?_)
          exact List.mem_append.mpr (Or.inr hkw))
        rw [this] at hinc
        exact Bool.false_ne_true hinc
    unfold getExperienceLevel
    cases hcl : configExperienceLevels config with
    | none => simpa using hdef
    | some levels =>
      have hkeys : ∀ kw ∈ expConfigKeywords (some levels),
          jsIncludes (classifyText title description) kw = false := by
        intro kw hkw
        refine hexp kw ?_
        rw [hcl]
        exact List.mem_append.mpr (Or.inl (List.mem_append.mpr (Or.inl hkw)))
      have hs : levelMatches levels.senior (classifyText title description) = false :=
        levelMatches_eq_false fun kw hkw => hkeys kw (by
          simp only [expConfigKeywords, List.mem_append]
          exact Or.inl (Or.inl (by cases h : levels.senior <;> simp_all)))
      have he : levelMatches levels.entry (classifyText title description) = false :=
        levelMatches_eq_false fun kw hkw => hkeys kw (by
          simp only [expConfigKeywords, List.mem_append]
          exact Or.inl (Or.inr (by cases h : levels.entry <;> simp_all)))
      have hm : levelMatches levels.mid (classifyText title description) = false :=
        levelMatches_eq_false fun kw hkw => hkeys kw (by
          simp only [expConfigKeywords, List.mem_append]
          exact Or.inr (by cases h : levels.mid <;> simp_all))
      simp only [hs, he, hm, if_neg, Bool.false_eq_true, if_false]
      simpa using hdef

/-- Witness for C8: the neutral title `"Plumber"` with no config matches no
keyword and gets both defaults. -/
theorem classifier_defaults_witness :
    getJobCategory none "Plumber" "" = "Software Engineering" ∧
    getExperienceLevel none "Plumber" "" = "Entry-Level" :=
  classifier_defaults none "Plumber" "" (by decide) (by decide) (by decide)

/-- C9: both store loaders yield an empty collection when the file is
missing or its contents fail to parse (including a parsed `null`, where
`Object.keys` would throw — the `catch` still yields an empty set), and a
legacy seen-IDs file stored as an object is loaded as its keys. -/
theorem store_load_safety :
    loadSeenJobsStore none = [] ∧
    loadSeenJobsStore (some (.error ())) = [] ∧
    loadSeenJobsStore (some (.ok .jnull)) = [] ∧
    (∀ kvs : List (String × JVal), (kvs.map Prod.fst).Nodup →
      loadSeenJobsStore (some (.ok (.jobj kvs))) = kvs.map (fun kv => JVal.jstr kv.1)) ∧
    loadCurrentJobsStore none = .jarr [] ∧
    loadCurrentJobsStore (some (.error ())) = .jarr [] := by
  refine ⟨rfl, rfl, rfl, ?_, rfl, rfl⟩
  intro kvs hnd
  have hbody : loadSeenJobsStore (some (.ok (.jobj kvs))) =
      (kvs.map fun kv => JVal.jstr kv.1).foldl setInsert [] := rfl
  rw [hbody, foldl_setInsert_of_distinct]
  · exact List.nil_append _
  · intro x _ y hy
    exact absurd hy (List.not_mem_nil y)
  · rw [List.pairwise_map]
    have hpair : kvs.Pairwise fun kv1 kv2 => kv1.1 ≠ kv2.1 := by
      have := hnd
      rw [List.Nodup, List.pairwise_map] at this
      exact this
    refine hpair.imp ?_
    intro a b hne
    simpa [sameValueZero] using hne

/-- Witness for C9: a two-key legacy object loads as its keys. -/
theorem store_load_safety_witness :
    loadSeenJobsStore (some (.ok (.jobj [("a", .jnum 1), ("b", .jnull)]))) =
      [JVal.jstr "a", JVal.jstr "b"] :=
  store_load_safety.2.2.2.1 [("a", .jnum 1), ("b", .jnull)] (by decide)

/-- C10: a job whose `job_source` is `"jsearch"` is never classified senior;
any other job is senior exactly when the lowercased title+description
contains some senior keyword and no entry-level keyword. -/
theorem isSeniorJob_spec (job : Job) :
    (job.job_source = some "jsearch" → isSeniorJob job = false) ∧
    (job.job_source ≠ some "jsearch" →
      (isSeniorJob job = true ↔
        (∃ kw ∈ seniorKeywords, jsIncludes (seniorFilterText job) kw = true) ∧
        (∀ kw ∈ entryLevelKeywords, jsIncludes (seniorFilterText job) kw = false))) := by
  constructor
  · intro h
    simp [isSeniorJob, h]
  · intro h
    simp only [isSeniorJob, if_neg h]
    constructor
    · intro hb
      rw [Bool.and_eq_true, Bool.not_eq_true'] at hb
      refine ⟨List.any_eq_true.mp hb.1, ?_⟩
      intro kw hkw
      exact Bool.eq_false_iff.mpr (List.any_eq_false.mp hb.2 kw hkw)
    · rintro ⟨⟨kw, hkw, hinc⟩, hall⟩
      rw [Bool.and_eq_true, Bool.not_eq_true']
      refine ⟨List.any_eq_true.mpr ⟨kw, hkw, hinc⟩, List.any_eq_false.mpr ?_⟩
      intro x hx
      exact Bool.eq_false_iff.mp (hall x hx)

/-- Witness for C10: a concrete JSearch job passes the filter, and a
concrete senior-titled non-JSearch job is flagged. -/
theorem isSeniorJob_spec_witness :
    isSeniorJob { job_title := some "Senior Engineer", job_source := some "jsearch" } = false ∧
    isSeniorJob { job_title := some "Senior Engineer", job_source := some "greenhouse" } = true := by
  constructor
  · exact (isSeniorJob_spec _).1 rfl
  · exact ((isSeniorJob_spec
      { job_title := some "Senior Engineer", job_source := some "greenhouse" }).2
      (by decide)).mpr ⟨⟨"senior", by decide, by decide⟩, by decide⟩

end JobBoard
